import Mathlib

/-!
# toInternalTypes: removal of kubebuilder comments and json tag fragments

A shallow embedding of `src/toInternalTypes/main.go`.

Go strings are modelled as lists of Unicode code points (`List Char`). Every
string the program handles comes out of `go/parser`, which rejects source that
is not valid UTF-8, and all the needles the program searches for are ASCII, so
byte-wise and code-point-wise prefix and substring tests agree.
-/

namespace ToInternalTypes

/-! ## The functions of package `strings` the program calls -/

/-- The back quote character, delimiter of Go raw string literals. -/
def backtick : Char := Char.ofNat 96

/-- Go `unicode.IsSpace`: the Latin-1 spaces `\t \n \v \f \r`, space, U+0085,
U+00A0, and beyond Latin-1 the code points of the `White_Space` property. -/
def isSpace (r : Char) : Bool :=
  let n := r.toNat
  if n ≤ 0xFF then
    n == 0x09 || n == 0x0A || n == 0x0B || n == 0x0C || n == 0x0D || n == 0x20
      || n == 0x85 || n == 0xA0
  else
    n == 0x1680 || (0x2000 ≤ n && n ≤ 0x200A) || n == 0x2028 || n == 0x2029
      || n == 0x202F || n == 0x205F || n == 0x3000

/-- Go `strings.HasPrefix(s, prefix)`:
`len(s) >= len(prefix) && s[:len(prefix)] == prefix`. -/
def HasPrefix (s pre : List Char) : Bool :=
  decide (s.length ≥ pre.length) && (s.take pre.length == pre)

/-- Go `strings.Contains(s, substr)`: `substr` occurs at some offset of `s`. -/
def Contains : List Char → List Char → Bool
  | [], substr => HasPrefix [] substr
  | c :: s, substr => HasPrefix (c :: s) substr || Contains s substr

/-- Go `strings.Trim(s, cutset)`: all leading and trailing code points that
belong to `cutset` are removed (right end first, then left end). -/
def Trim (s cutset : List Char) : List Char :=
  ((s.reverse.dropWhile (fun c => decide (c ∈ cutset))).reverse).dropWhile
    (fun c => decide (c ∈ cutset))

/-- The scanning loop of Go `strings.Fields`: `cur` is the field being read
(empty when the scan is between fields). A white space character closes the
current field, any other character extends it, and the end of the string closes
a field that is still open. -/
def fieldsLoop (cur : List Char) : List Char → List (List Char)
  | [] => if cur.isEmpty then [] else [cur]
  | c :: s =>
    if isSpace c then
      if cur.isEmpty then fieldsLoop [] s else cur :: fieldsLoop [] s
    else fieldsLoop (cur ++ [c]) s

/-- Go `strings.Fields(s)`: the maximal runs of non-white-space characters. -/
def Fields (s : List Char) : List (List Char) := fieldsLoop [] s

/-- Go `strings.Join(elems, sep)`. -/
def Join : List (List Char) → List Char → List Char
  | [], _ => []
  | [e], _ => e
  | e :: e2 :: es, sep => e ++ sep ++ Join (e2 :: es) sep

/-! ## Comments (`go/ast`) -/

/-- Go `ast.Comment`: the position of its first character and its text. -/
structure Comment where
  slash : Nat
  text : List Char
deriving DecidableEq, Repr

/-- Go `ast.CommentGroup`: a sequence of comments with no other tokens and no
empty lines between. -/
structure CommentGroup where
  list : List Comment
deriving DecidableEq, Repr

/-- The marker `containsKubebuilder` searches for. -/
def kubebuilder : List Char := "kubebuilder".toList

/-- Go `containsKubebuilder(cg *ast.CommentGroup) bool`; `none` is the nil
pointer. -/
def containsKubebuilder : Option CommentGroup → Bool
  | none => false
  | some cg => cg.list.any (fun comment => Contains comment.text kubebuilder)

/-! ## Struct tags -/

/-- Go `ast.BasicLit`: a literal of basic type, `value` being its source text
(for a string literal, with its delimiters). -/
structure BasicLit where
  valuePos : Nat
  kind : Nat
  value : List Char
deriving DecidableEq, Repr

/-- The prefix `processFieldTag` tests a tag fragment for. -/
def jsonColon : List Char := "json:".toList

/-- The loop of `processFieldTag`: `newParts` starts nil and every part that
does not start with `json:` is appended to it. -/
def newPartsOf (parts : List (List Char)) : List (List Char) :=
  parts.foldl (fun newParts part =>
    if !HasPrefix part jsonColon then newParts ++ [part] else newParts) []

/-- Go `processFieldTag(field *ast.Field)`. The function reads and writes
nothing of the field but `field.Tag`, which its caller has checked to be
non-nil: it is given that literal and returns the new `field.Tag`, `none` for
`field.Tag = nil`. -/
def processFieldTag (tag : BasicLit) : Option BasicLit :=
  let tagVal := tag.value
  let tagStr := Trim tagVal [backtick]
  let parts := Fields tagStr
  let newParts := newPartsOf parts
  if newParts.length == 0 then none
  else some { tag with value := [backtick] ++ Join newParts [' '] ++ [backtick] }

/-! ## The syntax tree (`go/ast`)

The node types the two passes look at are modelled field by field: `File`,
`GenDecl`, `FuncDecl`, the three kinds of `Spec`, `Field`, `FieldList` and
`StructType`. The other expressions and statements are kept as generic nodes
that carry their kind, their token text and their children, which is all
`ast.Inspect` needs of them. Pointers that may be nil are `Option`s. -/

mutual
/-- Go `ast.Expr`. `leaf` stands for `BadExpr`, `Ident` and `BasicLit`; `node`
for the expressions whose children are expressions (`CompositeLit`,
`CallExpr`, `StarExpr`, `ArrayType`, `MapType`, ...). -/
inductive Expr where
  | leaf (kind : Nat) (text : List Char)
  | node (kind : Nat) (text : List Char) (exprs : List Expr)
  | funcLit (type : Expr) (body : Stmt)
  | structType (fields : Option FieldList) (incomplete : Bool)
  | funcType (typeParams : Option FieldList) (params : Option FieldList)
      (results : Option FieldList)
  | interfaceType (methods : Option FieldList) (incomplete : Bool)
/-- Go `ast.Field`. -/
inductive Field where
  | mk (doc : Option CommentGroup) (names : List (List Char)) (type : Option Expr)
      (tag : Option BasicLit) (comment : Option CommentGroup)
/-- Go `ast.FieldList`. -/
inductive FieldList where
  | mk (list : List Field)
/-- Go `ast.Stmt`. `node` stands for every statement but `DeclStmt`: it holds
expressions and statements. -/
inductive Stmt where
  | declStmt (decl : Decl)
  | node (kind : Nat) (text : List Char) (exprs : List Expr) (stmts : List Stmt)
/-- Go `ast.Spec`. -/
inductive Spec where
  | importSpec (doc : Option CommentGroup) (name : Option (List Char)) (path : BasicLit)
      (comment : Option CommentGroup)
  | valueSpec (doc : Option CommentGroup) (names : List (List Char)) (type : Option Expr)
      (values : List Expr) (comment : Option CommentGroup)
  | typeSpec (doc : Option CommentGroup) (name : List Char) (typeParams : Option FieldList)
      (type : Expr) (comment : Option CommentGroup)
/-- Go `ast.Decl`. -/
inductive Decl where
  | badDecl
  | genDecl (doc : Option CommentGroup) (tok : Nat) (specs : List Spec)
  | funcDecl (doc : Option CommentGroup) (recv : Option FieldList) (name : List Char)
      (type : Expr) (body : Option Stmt)
end

/-- Go `ast.File`: the package documentation, the package name, the top-level
declarations and the list of all comments of the file. -/
structure File where
  doc : Option CommentGroup
  name : List Char
  decls : List Decl
  comments : List (Option CommentGroup)

/-! ## `processComments` -/

/-- The statement every case of the callback of `processComments` runs:
`if node.Doc != nil && containsKubebuilder(node.Doc) { node.Doc = nil }`; the
result is the new `node.Doc`. -/
def clearMarkedDoc (doc : Option CommentGroup) : Option CommentGroup :=
  if doc.isSome && containsKubebuilder doc then none else doc

mutual
/-- The walk `ast.Inspect` makes with the callback of `processComments`, below
an expression. The callback changes the `Doc` of a `GenDecl`, `FuncDecl`,
`TypeSpec`, `Field` or `ValueSpec` and returns true, so every child is
visited. -/
def inspectCommentsExpr : Expr → Expr
  | .leaf kind text => .leaf kind text
  | .node kind text exprs => .node kind text (inspectCommentsExprs exprs)
  | .funcLit type body => .funcLit (inspectCommentsExpr type) (inspectCommentsStmt body)
  | .structType fields incomplete => .structType (inspectCommentsOptFieldList fields) incomplete
  | .funcType typeParams params results =>
    .funcType (inspectCommentsOptFieldList typeParams) (inspectCommentsOptFieldList params)
      (inspectCommentsOptFieldList results)
  | .interfaceType methods incomplete =>
    .interfaceType (inspectCommentsOptFieldList methods) incomplete
/-- The walk of `processComments` over a list of expressions. -/
def inspectCommentsExprs : List Expr → List Expr
  | [] => []
  | e :: es => inspectCommentsExpr e :: inspectCommentsExprs es
/-- The walk of `processComments` below an expression that may be nil. -/
def inspectCommentsOptExpr : Option Expr → Option Expr
  | none => none
  | some e => some (inspectCommentsExpr e)
/-- The walk of `processComments` at an `*ast.Field`. -/
def inspectCommentsField : Field → Field
  | .mk doc names type tag comment =>
    .mk (clearMarkedDoc doc) names (inspectCommentsOptExpr type) tag comment
/-- The walk of `processComments` over the fields of a field list. -/
def inspectCommentsFields : List Field → List Field
  | [] => []
  | f :: fs => inspectCommentsField f :: inspectCommentsFields fs
/-- The walk of `processComments` at an `*ast.FieldList`. -/
def inspectCommentsFieldList : FieldList → FieldList
  | .mk list => .mk (inspectCommentsFields list)
/-- The walk of `processComments` at a field list that may be nil. -/
def inspectCommentsOptFieldList : Option FieldList → Option FieldList
  | none => none
  | some l => some (inspectCommentsFieldList l)
/-- The walk of `processComments` at a statement. -/
def inspectCommentsStmt : Stmt → Stmt
  | .declStmt decl => .declStmt (inspectCommentsDecl decl)
  | .node kind text exprs stmts =>
    .node kind text (inspectCommentsExprs exprs) (inspectCommentsStmts stmts)
/-- The walk of `processComments` over a list of statements. -/
def inspectCommentsStmts : List Stmt → List Stmt
  | [] => []
  | s :: ss => inspectCommentsStmt s :: inspectCommentsStmts ss
/-- The walk of `processComments` at a statement that may be nil. -/
def inspectCommentsOptStmt : Option Stmt → Option Stmt
  | none => none
  | some s => some (inspectCommentsStmt s)
/-- The walk of `processComments` at a spec; an `*ast.ImportSpec` matches no
case of the callback. -/
def inspectCommentsSpec : Spec → Spec
  | .importSpec doc name path comment => .importSpec doc name path comment
  | .valueSpec doc names type values comment =>
    .valueSpec (clearMarkedDoc doc) names (inspectCommentsOptExpr type)
      (inspectCommentsExprs values) comment
  | .typeSpec doc name typeParams type comment =>
    .typeSpec (clearMarkedDoc doc) name (inspectCommentsOptFieldList typeParams)
      (inspectCommentsExpr type) comment
/-- The walk of `processComments` over the specs of a `GenDecl`. -/
def inspectCommentsSpecs : List Spec → List Spec
  | [] => []
  | s :: ss => inspectCommentsSpec s :: inspectCommentsSpecs ss
/-- The walk of `processComments` at a declaration. -/
def inspectCommentsDecl : Decl → Decl
  | .badDecl => .badDecl
  | .genDecl doc tok specs => .genDecl (clearMarkedDoc doc) tok (inspectCommentsSpecs specs)
  | .funcDecl doc recv name type body =>
    .funcDecl (clearMarkedDoc doc) (inspectCommentsOptFieldList recv) name
      (inspectCommentsExpr type) (inspectCommentsOptStmt body)
end

/-- The walk of `processComments` over the declarations of the file. -/
def inspectCommentsDecls : List Decl → List Decl
  | [] => []
  | d :: ds => inspectCommentsDecl d :: inspectCommentsDecls ds

/-- The first loop of `processComments`: `newComments` starts nil and every
comment group for which `containsKubebuilder` is false is appended to it. -/
def newCommentsOf (comments : List (Option CommentGroup)) : List (Option CommentGroup) :=
  comments.foldl (fun newComments cg =>
    if !containsKubebuilder cg then newComments ++ [cg] else newComments) []

/-- Go `processComments(file *ast.File)`: the file as the function leaves it.
The callback matches no case at the `*ast.File` itself, and `ast.Inspect` goes
on into its declarations. -/
def processComments (file : File) : File :=
  let newComments := newCommentsOf file.comments
  { file with comments := newComments, decls := inspectCommentsDecls file.decls }

/-! ## `processStructTags` -/

/-- The body of the loop over `node.Fields.List` in `processStructTags`:
`if field.Tag != nil { processFieldTag(field) }`; the result is the new
`field.Tag`. -/
def processTagOf (tag : Option BasicLit) : Option BasicLit :=
  match tag with
  | none => none
  | some lit => processFieldTag lit

mutual
/-- The walk `ast.Inspect` makes with the callback of `processStructTags`. At
an `*ast.StructType` with non-nil `Fields` the callback runs its loop over the
fields of the struct, then the walk goes on into these fields; `inStruct`
tells the walk at a field whether that loop has treated it. -/
def inspectTagsExpr : Expr → Expr
  | .leaf kind text => .leaf kind text
  | .node kind text exprs => .node kind text (inspectTagsExprs exprs)
  | .funcLit type body => .funcLit (inspectTagsExpr type) (inspectTagsStmt body)
  | .structType fields incomplete => .structType (inspectTagsOptFieldList true fields) incomplete
  | .funcType typeParams params results =>
    .funcType (inspectTagsOptFieldList false typeParams) (inspectTagsOptFieldList false params)
      (inspectTagsOptFieldList false results)
  | .interfaceType methods incomplete =>
    .interfaceType (inspectTagsOptFieldList false methods) incomplete
/-- The walk of `processStructTags` over a list of expressions. -/
def inspectTagsExprs : List Expr → List Expr
  | [] => []
  | e :: es => inspectTagsExpr e :: inspectTagsExprs es
/-- The walk of `processStructTags` below an expression that may be nil. -/
def inspectTagsOptExpr : Option Expr → Option Expr
  | none => none
  | some e => some (inspectTagsExpr e)
/-- The walk of `processStructTags` at an `*ast.Field`. -/
def inspectTagsField ( inStruct : Bool) : Field → Field
  | .mk doc names type tag comment =>
    .mk doc names (inspectTagsOptExpr type) (if inStruct then processTagOf tag else tag) comment
/-- The walk of `processStructTags` over the fields of a field list. -/
def inspectTagsFields ( inStruct : Bool) : List Field → List Field
  | [] => []
  | f :: fs => inspectTagsField inStruct f :: inspectTagsFields inStruct fs
/-- The walk of `processStructTags` at an `*ast.FieldList`. -/
def inspectTagsFieldList ( inStruct : Bool) : FieldList → FieldList
  | .mk list => .mk (inspectTagsFields inStruct list)
/-- The walk of `processStructTags` at a field list that may be nil. -/
def inspectTagsOptFieldList ( inStruct : Bool) : Option FieldList → Option FieldList
  | none => none
  | some l => some (inspectTagsFieldList inStruct l)
/-- The walk of `processStructTags` at a statement. -/
def inspectTagsStmt : Stmt → Stmt
  | .declStmt decl => .declStmt (inspectTagsDecl decl)
  | .node kind text exprs stmts =>
    .node kind text (inspectTagsExprs exprs) (inspectTagsStmts stmts)
/-- The walk of `processStructTags` over a list of statements. -/
def inspectTagsStmts : List Stmt → List Stmt
  | [] => []
  | s :: ss => inspectTagsStmt s :: inspectTagsStmts ss
/-- The walk of `processStructTags` at a statement that may be nil. -/
def inspectTagsOptStmt : Option Stmt → Option Stmt
  | none => none
  | some s => some (inspectTagsStmt s)
/-- The walk of `processStructTags` at a spec. -/
def inspectTagsSpec : Spec → Spec
  | .importSpec doc name path comment => .importSpec doc name path comment
  | .valueSpec doc names type values comment =>
    .valueSpec doc names (inspectTagsOptExpr type) (inspectTagsExprs values) comment
  | .typeSpec doc name typeParams type comment =>
    .typeSpec doc name (inspectTagsOptFieldList false typeParams) (inspectTagsExpr type) comment
/-- The walk of `processStructTags` over the specs of a `GenDecl`. -/
def inspectTagsSpecs : List Spec → List Spec
  | [] => []
  | s :: ss => inspectTagsSpec s :: inspectTagsSpecs ss
/-- The walk of `processStructTags` at a declaration. -/
def inspectTagsDecl : Decl → Decl
  | .badDecl => .badDecl
  | .genDecl doc tok specs => .genDecl doc tok (inspectTagsSpecs specs)
  | .funcDecl doc recv name type body =>
    .funcDecl doc (inspectTagsOptFieldList false recv) name (inspectTagsExpr type)
      (inspectTagsOptStmt body)
end

/-- The walk of `processStructTags` over the declarations of the file. -/
def inspectTagsDecls : List Decl → List Decl
  | [] => []
  | d :: ds => inspectTagsDecl d :: inspectTagsDecls ds

/-- Go `processStructTags(file *ast.File)`: the file as the function leaves
it. -/
def processStructTags (file : File) : File :=
  { file with decls := inspectTagsDecls file.decls }

/-! ## Vocabulary for stating properties of the tree -/

/-- The node types of `go/ast` that have a `Doc` field. -/
inductive DocKind where
  | genDecl | funcDecl | typeSpec | field | valueSpec | importSpec | file
deriving DecidableEq, Repr

/-- The five node kinds the callback of `processComments` has a case for. -/
def fiveKinds : List DocKind :=
  [DocKind.genDecl, DocKind.funcDecl, DocKind.typeSpec, DocKind.field, DocKind.valueSpec]

mutual
/-- The `Doc` of every node below an expression that has one, with the kind of
the node, in the order `ast.Walk` visits the nodes. -/
def docsExpr : Expr → List (DocKind × Option CommentGroup)
  | .leaf _ _ => []
  | .node _ _ exprs => docsExprs exprs
  | .funcLit type body => docsExpr type ++ docsStmt body
  | .structType fields _ => docsOptFieldList fields
  | .funcType typeParams params results =>
    docsOptFieldList typeParams ++ docsOptFieldList params ++ docsOptFieldList results
  | .interfaceType methods _ => docsOptFieldList methods
/-- The documented nodes below a list of expressions. -/
def docsExprs : List Expr → List (DocKind × Option CommentGroup)
  | [] => []
  | e :: es => docsExpr e ++ docsExprs es
/-- The documented nodes below an expression that may be nil. -/
def docsOptExpr : Option Expr → List (DocKind × Option CommentGroup)
  | none => []
  | some e => docsExpr e
/-- The documented nodes at and below a field. -/
def docsField : Field → List (DocKind × Option CommentGroup)
  | .mk doc _ type _ _ => (DocKind.field, doc) :: docsOptExpr type
/-- The documented nodes at and below the fields of a list. -/
def docsFields : List Field → List (DocKind × Option CommentGroup)
  | [] => []
  | f :: fs => docsField f ++ docsFields fs
/-- The documented nodes below a field list. -/
def docsFieldList : FieldList → List (DocKind × Option CommentGroup)
  | .mk list => docsFields list
/-- The documented nodes below a field list that may be nil. -/
def docsOptFieldList : Option FieldList → List (DocKind × Option CommentGroup)
  | none => []
  | some l => docsFieldList l
/-- The documented nodes below a statement. -/
def docsStmt : Stmt → List (DocKind × Option CommentGroup)
  | .declStmt decl => docsDecl decl
  | .node _ _ exprs stmts => docsExprs exprs ++ docsStmts stmts
/-- The documented nodes below a list of statements. -/
def docsStmts : List Stmt → List (DocKind × Option CommentGroup)
  | [] => []
  | s :: ss => docsStmt s ++ docsStmts ss
/-- The documented nodes below a statement that may be nil. -/
def docsOptStmt : Option Stmt → List (DocKind × Option CommentGroup)
  | none => []
  | some s => docsStmt s
/-- The documented nodes at and below a spec. -/
def docsSpec : Spec → List (DocKind × Option CommentGroup)
  | .importSpec doc _ _ _ => [(DocKind.importSpec, doc)]
  | .valueSpec doc _ type values _ =>
    (DocKind.valueSpec, doc) :: (docsOptExpr type ++ docsExprs values)
  | .typeSpec doc _ typeParams type _ =>
    (DocKind.typeSpec, doc) :: (docsOptFieldList typeParams ++ docsExpr type)
/-- The documented nodes at and below the specs of a `GenDecl`. -/
def docsSpecs : List Spec → List (DocKind × Option CommentGroup)
  | [] => []
  | s :: ss => docsSpec s ++ docsSpecs ss
/-- The documented nodes at and below a declaration. -/
def docsDecl : Decl → List (DocKind × Option CommentGroup)
  | .badDecl => []
  | .genDecl doc _ specs => (DocKind.genDecl, doc) :: docsSpecs specs
  | .funcDecl doc recv _ type body =>
    (DocKind.funcDecl, doc) :: (docsOptFieldList recv ++ docsExpr type ++ docsOptStmt body)
end

/-- The documented nodes at and below the declarations of a file. -/
def docsDecls : List Decl → List (DocKind × Option CommentGroup)
  | [] => []
  | d :: ds => docsDecl d ++ docsDecls ds

/-- Every node of the file that has a `Doc` field, with its kind and its
`Doc`, at any depth, in the order `ast.Walk` visits the nodes; the file itself
comes first. -/
def docNodes (file : File) : List (DocKind × Option CommentGroup) :=
  (DocKind.file, file.doc) :: docsDecls file.decls

/-- What `processComments` does to the `Doc` of a node of a given kind. -/
def docAfter (n : DocKind × Option CommentGroup) : DocKind × Option CommentGroup :=
  if n.1 ∈ fiveKinds then (n.1, clearMarkedDoc n.2) else n

/-- A comment group whose only line is the marker `+kubebuilder:object:generate=true`. -/
def markerGroup : CommentGroup := ⟨[⟨1, "// +kubebuilder:object:generate=true".toList⟩]⟩

/-- A comment group with the marker in front of an import. -/
def importMarkerGroup : CommentGroup := ⟨[⟨60, "// +kubebuilder:scaffold:imports".toList⟩]⟩

/-- A file whose package clause `package v1` is documented by the comment
`// +kubebuilder:object:generate=true` and whose one import, of `"fmt"`, is
documented by the comment `// +kubebuilder:scaffold:imports`, as the parser
returns it: the first comment group is the package documentation `File.Doc`,
the second the `Doc` of the import spec, and both are in `File.Comments`. -/
def pkgDocFile : File :=
  { doc := some markerGroup
    name := "v1".toList
    decls := [Decl.genDecl none 75
      [Spec.importSpec (some importMarkerGroup) none ⟨95, 9, "\"fmt\"".toList⟩ none]]
    comments := [some markerGroup, some importMarkerGroup] }

/-! ## Vocabulary for stating properties of tags -/

/-- The double quote character, delimiter of Go interpreted string literals. -/
def dquote : Char := Char.ofNat 34

/-- The backslash character. -/
def backslash : Char := Char.ofNat 92

/-- The key of a tag fragment: its text before the first `:`. -/
def keyOf (p : List Char) : List Char := p.takeWhile (fun c => c != ':')

/-- A tag fragment has key `json`: it holds a `:` and its text before the
first `:` is exactly `json`. -/
def keyIsJson (p : List Char) : Bool := p.contains ':' && (keyOf p == "json".toList)

/-- The content of a string literal: its source text without the first and the
last character, its delimiters. -/
def tagContent (v : List Char) : List Char := (v.drop 1).dropLast

/-- After the opening back quote of a raw string literal: any characters but a
back quote, then the closing back quote, then nothing. -/
def rawBody : List Char → Bool
  | [] => false
  | c :: rest => if c == backtick then rest.isEmpty else rawBody rest

/-- A well-formed Go raw string literal. -/
def isRawStringLit : List Char → Bool
  | [] => false
  | c :: rest => c == backtick && rawBody rest

/-- The value of a hexadecimal digit. -/
def hexDigit (c : Char) : Option Nat :=
  let n := c.toNat
  if 48 ≤ n ∧ n ≤ 57 then some (n - 48)
  else if 97 ≤ n ∧ n ≤ 102 then some (n - 87)
  else if 65 ≤ n ∧ n ≤ 70 then some (n - 55)
  else none

/-- The value of a run of hexadecimal digits, `none` if one is not a digit. -/
def hexValue (acc : Nat) : List Char → Option Nat
  | [] => some acc
  | c :: cs => match hexDigit c with
    | none => none
    | some d => hexValue (16 * acc + d) cs

/-- The value of a run of octal digits, `none` if one is not a digit. -/
def octValue (acc : Nat) : List Char → Option Nat
  | [] => some acc
  | c :: cs => if 48 ≤ c.toNat ∧ c.toNat ≤ 55 then octValue (8 * acc + (c.toNat - 48)) cs else none

/-- A Unicode code point an escape may denote: in range and no surrogate half. -/
def validCodePoint (n : Nat) : Bool := n < 0xD800 || (0xE000 ≤ n && n ≤ 0x10FFFF)

/-- After the opening double quote of an interpreted string literal: characters
other than newline, double quote and backslash, and the escapes `\a \b \f \n
\r \t \v \\ \"`, `\ooo` (at most 255), `\xhh`, `\uhhhh` and `\Uhhhhhhhh`; then
the closing double quote, then nothing. -/
def interpretedBody : List Char → Bool
  | [] => false
  | c :: rest =>
    if c == dquote then rest.isEmpty
    else if c == '\n' then false
    else if c == backslash then
      match rest with
      | [] => false
      | e :: r1 =>
        if e == 'a' || e == 'b' || e == 'f' || e == 'n' || e == 'r' || e == 't' || e == 'v'
            || e == backslash || e == dquote then interpretedBody r1
        else if e == 'x' then
          match r1 with
          | h1 :: h2 :: r => (hexValue 0 [h1, h2]).isSome && interpretedBody r
          | _ => false
        else if e == 'u' then
          match r1 with
          | h1 :: h2 :: h3 :: h4 :: r =>
            (match hexValue 0 [h1, h2, h3, h4] with
              | some n => validCodePoint n
              | none => false) && interpretedBody r
          | _ => false
        else if e == 'U' then
          match r1 with
          | h1 :: h2 :: h3 :: h4 :: h5 :: h6 :: h7 :: h8 :: r =>
            (match hexValue 0 [h1, h2, h3, h4, h5, h6, h7, h8] with
              | some n => validCodePoint n
              | none => false) && interpretedBody r
          | _ => false
        else
          match r1 with
          | o2 :: o3 :: r =>
            (match octValue 0 [e, o2, o3] with
              | some n => decide (n ≤ 255)
              | none => false) && interpretedBody r
          | _ => false
    else interpretedBody rest

/-- A well-formed Go interpreted string literal. -/
def isInterpretedStringLit : List Char → Bool
  | [] => false
  | c :: rest => c == dquote && interpretedBody rest

/-- A well-formed Go string literal, raw or interpreted. -/
def isStringLit (v : List Char) : Bool := isRawStringLit v || isInterpretedStringLit v

/-- The tag literal `json:"name" yaml:"name"` between back quotes. -/
def tagJsonYaml : BasicLit := ⟨0, 9, "\x60json:\"name\" yaml:\"name\"\x60".toList⟩

/-- The tag literal `json:"id"` between back quotes. -/
def tagJsonId : BasicLit := ⟨0, 9, "\x60json:\"id\"\x60".toList⟩

/-- The tag literal `"yaml:\"a\""`, an interpreted string. -/
def tagQuotedYaml : BasicLit := ⟨0, 9, "\"yaml:\\\"a\\\"\"".toList⟩

/-- The tag literal `"k:\"a\x60b\""`, an interpreted string that holds a back
quote. -/
def tagQuotedBacktick : BasicLit := ⟨0, 9, "\"k:\\\"a\x60b\\\"\"".toList⟩

/-! ## Vocabulary for stating properties of field tags in the tree -/

mutual
/-- The `Tag` of every field below an expression, at any depth, in the order
`ast.Walk` visits the fields; the flag tells whether the field belongs to the
field list of a struct type. -/
def tagsExpr : Expr → List (Bool × Option BasicLit)
  | .leaf _ _ => []
  | .node _ _ exprs => tagsExprs exprs
  | .funcLit type body => tagsExpr type ++ tagsStmt body
  | .structType fields _ => tagsOptFieldList true fields
  | .funcType typeParams params results =>
    tagsOptFieldList false typeParams ++ tagsOptFieldList false params
      ++ tagsOptFieldList false results
  | .interfaceType methods _ => tagsOptFieldList false methods
/-- The field tags below a list of expressions. -/
def tagsExprs : List Expr → List (Bool × Option BasicLit)
  | [] => []
  | e :: es => tagsExpr e ++ tagsExprs es
/-- The field tags below an expression that may be nil. -/
def tagsOptExpr : Option Expr → List (Bool × Option BasicLit)
  | none => []
  | some e => tagsExpr e
/-- The tag of a field and the field tags below it. -/
def tagsField ( inStruct : Bool) : Field → List (Bool × Option BasicLit)
  | .mk _ _ type tag _ => (inStruct, tag) :: tagsOptExpr type
/-- The field tags at and below the fields of a list. -/
def tagsFields ( inStruct : Bool) : List Field → List (Bool × Option BasicLit)
  | [] => []
  | f :: fs => tagsField inStruct f ++ tagsFields inStruct fs
/-- The field tags at and below a field list. -/
def tagsFieldList ( inStruct : Bool) : FieldList → List (Bool × Option BasicLit)
  | .mk list => tagsFields inStruct list
/-- The field tags at and below a field list that may be nil. -/
def tagsOptFieldList ( inStruct : Bool) : Option FieldList → List (Bool × Option BasicLit)
  | none => []
  | some l => tagsFieldList inStruct l
/-- The field tags below a statement. -/
def tagsStmt : Stmt → List (Bool × Option BasicLit)
  | .declStmt decl => tagsDecl decl
  | .node _ _ exprs stmts => tagsExprs exprs ++ tagsStmts stmts
/-- The field tags below a list of statements. -/
def tagsStmts : List Stmt → List (Bool × Option BasicLit)
  | [] => []
  | s :: ss => tagsStmt s ++ tagsStmts ss
/-- The field tags below a statement that may be nil. -/
def tagsOptStmt : Option Stmt → List (Bool × Option BasicLit)
  | none => []
  | some s => tagsStmt s
/-- The field tags below a spec. -/
def tagsSpec : Spec → List (Bool × Option BasicLit)
  | .importSpec _ _ _ _ => []
  | .valueSpec _ _ type values _ => tagsOptExpr type ++ tagsExprs values
  | .typeSpec _ _ typeParams type _ => tagsOptFieldList false typeParams ++ tagsExpr type
/-- The field tags below the specs of a `GenDecl`. -/
def tagsSpecs : List Spec → List (Bool × Option BasicLit)
  | [] => []
  | s :: ss => tagsSpec s ++ tagsSpecs ss
/-- The field tags below a declaration. -/
def tagsDecl : Decl → List (Bool × Option BasicLit)
  | .badDecl => []
  | .genDecl _ _ specs => tagsSpecs specs
  | .funcDecl _ recv _ type body =>
    tagsOptFieldList false recv ++ tagsExpr type ++ tagsOptStmt body
end

/-- The field tags below the declarations of a file. -/
def tagsDecls : List Decl → List (Bool × Option BasicLit)
  | [] => []
  | d :: ds => tagsDecl d ++ tagsDecls ds

/-- The `Tag` of every field of the file, at any depth, in the order `ast.Walk`
visits the fields, each with the flag that tells whether the field is a field
of a struct type. -/
def fieldTags (file : File) : List (Bool × Option BasicLit) := tagsDecls file.decls

/-- What `processStructTags` does to the tag of a field: the tag of a struct
field that has one is what `processFieldTag` makes of it. -/
def tagAfter (n : Bool × Option BasicLit) : Bool × Option BasicLit :=
  (n.1, if n.1 then (match n.2 with
    | none => none
    | some lit => processFieldTag lit) else n.2)

/-- The loop body of `processStructTags` as a function of the field:
`if field.Tag != nil { processFieldTag(field) }`. -/
def processFieldTagIfPresent : Field → Field
  | .mk doc names type tag comment => .mk doc names type (processTagOf tag) comment

/-- The mutation `processFile` applies to the parsed tree: `processComments`,
then `processStructTags`. -/
def mutate (file : File) : File := processStructTags (processComments file)

/-- After `processStructTags`, applied twice: the tag of a struct field is
absent, a raw string literal, or a literal with no back quote in it. -/
def rawOrNoBacktick : Option BasicLit → Bool
  | none => true
  | some lit => isRawStringLit lit.value || !lit.value.contains backtick

/-- A text starts with a white space character. -/
def startsWithSpace : List Char → Bool
  | [] => false
  | a :: _ => isSpace a

/-- A text ends with a white space character. -/
def endsWithSpace (c : List Char) : Bool :=
  match c.getLast? with
  | none => false
  | some a => isSpace a

/-- Every white space character of the text that has a successor is the space
character U+0020 and its successor is not white space: neighbouring fragments
are separated by exactly one space. -/
def oneSpaceBetween : List Char → Bool
  | [] => true
  | [_] => true
  | a :: b :: rest => (!isSpace a || (a == ' ' && !isSpace b)) && oneSpaceBetween (b :: rest)

/-- The content of a tag is in the form `processFieldTag` writes and has
nothing to drop: it is not empty, has no white space at either end, exactly
one space between neighbouring fragments, and no fragment with key `json`. -/
def normalContent (c : List Char) : Bool :=
  !c.isEmpty && !startsWithSpace c && !endsWithSpace c && oneSpaceBetween c
    && (Fields c).all (fun p => !keyIsJson p)

/-- The tag of a field is absent, or a raw string literal whose content is in
normal form. -/
def normalOrAbsent : Option BasicLit → Bool
  | none => true
  | some lit => isRawStringLit lit.value && normalContent (tagContent lit.value)

/-- No fragment of the content of the tag, if there is a tag, has key `json`. -/
def noJsonFragment : Option BasicLit → Bool
  | none => true
  | some lit => (Fields (tagContent lit.value)).all (fun p => !keyIsJson p)

/-! ## `processFile` -/

/-- The lines `processFile` logs: parsing failed, generating the code failed,
writing the file failed; each with the path and the error. -/
inductive LogLine where
  | parseFailed (filePath : List Char) (err : List Char)
  | formatFailed (filePath : List Char) (err : List Char)
  | writeFailed (filePath : List Char) (err : List Char)
deriving DecidableEq, Repr

/-- The services `processFile` calls, given and not modelled further, over the
state `Disk` of the file system: `parser.ParseFile` reads the file at a path
and returns its tree or an error, `format.Node` renders a tree or fails, and
`os.WriteFile` leaves a new state of the file system and may report an
error. -/
structure Services (Disk : Type) where
  parseFile : Disk → List Char → Except (List Char) File
  formatNode : File → Except (List Char) (List Char)
  writeFile : Disk → List Char → List Char → Disk × Option (List Char)

/-- Go `processFile(filePath string)`: the state of the file system it leaves
and the lines it logs. -/
def processFile {Disk : Type} (sv : Services Disk) (disk : Disk) (filePath : List Char) :
    Disk × List LogLine :=
  match sv.parseFile disk filePath with
  | .error err => (disk, [LogLine.parseFailed filePath err])
  | .ok file =>
    let file := processComments file
    let file := processStructTags file
    match sv.formatNode file with
    | .error err => (disk, [LogLine.formatFailed filePath err])
    | .ok buf =>
      match sv.writeFile disk filePath buf with
      | (disk2, some err) => (disk2, [LogLine.writeFailed filePath err])
      | (disk2, none) => (disk2, [])

/-! ## Example trees -/

/-- The documentation block whose only line is `+kubebuilder:validation:Required`. -/
def requiredGroup : CommentGroup := ⟨[⟨40, "// +kubebuilder:validation:Required".toList⟩]⟩

/-- A struct type with the one field `field`. -/
def structOf (field : Field) : Expr := Expr.structType (some (FieldList.mk [field])) false

/-- The file `package v1; type Spec struct { Name string }` where the field
`Name` has the documentation block `requiredGroup` and the tag
`json:"name" yaml:"name"` between back quotes. -/
def requiredFieldFile : File :=
  { doc := none
    name := "v1".toList
    decls := [Decl.genDecl none 84 [Spec.typeSpec none "Spec".toList none
      (structOf (Field.mk (some requiredGroup) ["Name".toList]
        (some (Expr.leaf 4 "string".toList)) (some tagJsonYaml) none)) none]]
    comments := [some requiredGroup] }

/-- A file with one struct type whose one field has the given tag, and no
comment. -/
def fileWithTag (tag : BasicLit) : File :=
  { doc := none
    name := "v1".toList
    decls := [Decl.genDecl none 84 [Spec.typeSpec none "T".toList none
      (structOf (Field.mk none ["A".toList] (some (Expr.leaf 4 "int".toList)) (some tag) none))
      none]]
    comments := [] }

/-- The tag literal `"a\x60 json:x"`, an interpreted string with a back quote
before a white space. -/
def tagBacktickJson : BasicLit := ⟨0, 9, "\"a\x60 json:x\"".toList⟩

/-- The tag literal `a:"1"  b:"2"` between back quotes, two spaces between
its fragments. -/
def tagTwoSpaces : BasicLit := ⟨0, 9, "\x60a:\"1\"  b:\"2\"\x60".toList⟩

/-- The tag literal `a:"1"`, a tab, `b:"2"` between back quotes. -/
def tagTab : BasicLit := ⟨0, 9, "\x60a:\"1\"\tb:\"2\"\x60".toList⟩

/-- The tag literal `a:"1" b:"2"` between back quotes. -/
def tagOneSpace : BasicLit := ⟨0, 9, "\x60a:\"1\" b:\"2\"\x60".toList⟩

/-- The empty raw string literal, two back quotes. -/
def tagEmpty : BasicLit := ⟨0, 9, "\x60\x60".toList⟩

/-- The tag literal `yaml:"a json:b"` between back quotes. -/
def tagJsonInQuotes : BasicLit := ⟨0, 9, "\x60yaml:\"a json:b\"\x60".toList⟩

/-- The tag literal `json:"a b" yaml:"c"` between back quotes. -/
def tagSpaceInQuotes : BasicLit := ⟨0, 9, "\x60json:\"a b\" yaml:\"c\"\x60".toList⟩

/-- A file with struct types at several depths: the struct type `Outer` with a
field `A` and a field `In` whose type is a struct type with the field `B`;
and a function `f` with a parameter `p` whose body declares a variable of a
struct type with the field `C`. -/
def nestedFile : File :=
  { doc := none
    name := "v1".toList
    decls :=
      [Decl.genDecl none 84 [Spec.typeSpec none "Outer".toList none
        (Expr.structType (some (FieldList.mk
          [Field.mk none ["A".toList] (some (Expr.leaf 4 "int".toList))
             (some ⟨0, 9, "\x60json:\"a\" x:\"1\"\x60".toList⟩) none,
           Field.mk none ["In".toList]
             (some (structOf (Field.mk none ["B".toList] (some (Expr.leaf 4 "int".toList))
               (some ⟨0, 9, "\x60json:\"b\"\x60".toList⟩) none)))
             (some ⟨0, 9, "\x60y:\"2\"\x60".toList⟩) none])) false) none],
       Decl.funcDecl none none "f".toList
        (Expr.funcType none
          (some (FieldList.mk [Field.mk none ["p".toList] (some (Expr.leaf 4 "int".toList))
            none none])) none)
        (some (Stmt.node 0 [] [] [Stmt.declStmt (Decl.genDecl none 85
          [Spec.valueSpec none ["v".toList]
            (some (structOf (Field.mk none ["C".toList] (some (Expr.leaf 4 "int".toList))
              (some ⟨0, 9, "\x60json:\"c\" z:\"3\"\x60".toList⟩) none))) [] none])]))]
    comments := [] }

/-- A documentation block without the marker. -/
def plainGroup : CommentGroup := ⟨[⟨12, "// Spec is the desired state.".toList⟩]⟩

/-- The file `requiredFieldFile` with the documentation block `plainGroup` on
the type declaration; both blocks are in `File.Comments`. -/
def twoDocsFile : File :=
  { doc := none
    name := "v1".toList
    decls := [Decl.genDecl (some plainGroup) 84 [Spec.typeSpec none "Spec".toList none
      (structOf (Field.mk (some requiredGroup) ["Name".toList]
        (some (Expr.leaf 4 "string".toList)) (some tagJsonYaml) none)) none]]
    comments := [some plainGroup, some requiredGroup] }

/-- A file with nothing to remove: the documentation block `plainGroup` on the
type declaration and the tag `a:"1" b:"2"` on the field. -/
def plainFile : File :=
  { doc := none
    name := "v1".toList
    decls := [Decl.genDecl (some plainGroup) 84 [Spec.typeSpec none "Spec".toList none
      (structOf (Field.mk none ["Name".toList]
        (some (Expr.leaf 4 "string".toList)) (some tagOneSpace) none)) none]]
    comments := [some plainGroup] }

/-- The tag literal `"json:\"id\""`, the tag `json:"id"` written as an
interpreted string. -/
def tagQuotedJsonId : BasicLit := ⟨0, 9, "\"json:\\\"id\\\"\"".toList⟩

/-- The empty interpreted string literal, two double quotes. -/
def tagQuotedEmpty : BasicLit := ⟨0, 9, "\"\"".toList⟩

/-- The interpreted string literal of two spaces. -/
def tagQuotedBlank : BasicLit := ⟨0, 9, "\"  \"".toList⟩

/-- The tag literal of a space, a tab and a space between back quotes. -/
def tagBlank : BasicLit := ⟨0, 9, "\x60 \t \x60".toList⟩

/-! ## Facts about the string functions -/

theorem hasPrefix_iff (s pre : List Char) :
    HasPrefix s pre = true ↔ ∃ t, s = pre ++ t := by
  unfold HasPrefix
  simp only [Bool.and_eq_true, decide_eq_true_eq, beq_iff_eq]
  constructor
  · rintro ⟨_, h⟩
    exact ⟨s.drop pre.length, by
      conv_lhs => rw [← List.take_append_drop pre.length s]
      rw [h]⟩
  · rintro ⟨t, rfl⟩
    simp

theorem contains_iff (s substr : List Char) :
    Contains s substr = true ↔ ∃ a b, s = a ++ substr ++ b := by
  induction s with
  | nil =>
    simp only [Contains, hasPrefix_iff]
    constructor
    · rintro ⟨t, h⟩
      exact ⟨[], t, by simpa using h⟩
    · rintro ⟨a, b, h⟩
      have h1 : a ++ substr ++ b = [] := h.symm
      simp only [List.append_eq_nil] at h1
      exact ⟨[], by simp [h1.1.2]⟩
  | cons c s ih =>
    simp only [Contains, Bool.or_eq_true, hasPrefix_iff, ih]
    constructor
    · rintro (⟨t, h⟩ | ⟨a, b, h⟩)
      · exact ⟨[], t, by simpa using h⟩
      · exact ⟨c :: a, b, by simp [h]⟩
    · rintro ⟨a, b, h⟩
      cases a with
      | nil => exact Or.inl ⟨b, by simpa using h⟩
      | cons x a =>
        simp only [List.cons_append, List.cons.injEq] at h
        exact Or.inr ⟨a, b, h.2⟩

theorem fieldsLoop_append_word (w : List Char) (hw : ∀ c ∈ w, isSpace c = false) :
    ∀ (cur s : List Char), fieldsLoop cur (w ++ s) = fieldsLoop (cur ++ w) s := by
  induction w with
  | nil => intro cur s; simp
  | cons c w ih =>
    intro cur s
    have hc : isSpace c = false := hw c (List.mem_cons_self _ _)
    have hw2 : ∀ d ∈ w, isSpace d = false := fun d hd => hw d (List.mem_cons_of_mem _ hd)
    simp only [List.cons_append, fieldsLoop, hc, Bool.false_eq_true, if_false, List.append_eq]
    rw [ih hw2]
    simp

theorem fieldsLoop_mem (s : List Char) :
    ∀ cur : List Char, (∀ c ∈ cur, isSpace c = false) → ∀ w ∈ fieldsLoop cur s,
      w ≠ [] ∧ ∀ c ∈ w, isSpace c = false ∧ (c ∈ cur ∨ c ∈ s) := by
  induction s with
  | nil =>
    intro cur hcur w hw
    cases cur with
    | nil => simp [fieldsLoop] at hw
    | cons x xs =>
      simp only [fieldsLoop, List.isEmpty_cons, Bool.false_eq_true, if_false,
        List.mem_singleton] at hw
      subst hw
      exact ⟨by simp, fun c hc => ⟨hcur c hc, Or.inl hc⟩⟩
  | cons a s ih =>
    intro cur hcur w hw
    by_cases ha : isSpace a = true
    · have hrec : ∀ w ∈ fieldsLoop [] s, w ≠ [] ∧ ∀ c ∈ w, isSpace c = false ∧ (c ∈ cur ∨ c ∈ a :: s) := by
        intro w hw
        obtain ⟨h1, h2⟩ := ih [] (by simp) w hw
        refine ⟨h1, fun c hc => ?_⟩
        obtain ⟨h3, h4⟩ := h2 c hc
        refine ⟨h3, Or.inr ?_⟩
        rcases h4 with h4 | h4
        · simp at h4
        · exact List.mem_cons_of_mem _ h4
      cases cur with
      | nil =>
        simp only [fieldsLoop, ha, if_true, List.isEmpty_nil] at hw
        exact hrec w hw
      | cons x xs =>
        simp only [fieldsLoop, ha, if_true, List.isEmpty_cons, Bool.false_eq_true, if_false,
          List.mem_cons] at hw
        rcases hw with hw | hw
        · subst hw
          exact ⟨by simp, fun c hc => ⟨hcur c hc, Or.inl hc⟩⟩
        · exact hrec w hw
    · have ha2 : isSpace a = false := by simpa using ha
      simp only [fieldsLoop, ha2, Bool.false_eq_true, if_false] at hw
      have hcur2 : ∀ c ∈ cur ++ [a], isSpace c = false := by
        intro c hc
        rcases List.mem_append.1 hc with h | h
        · exact hcur c h
        · simp only [List.mem_singleton] at h
          subst h
          exact ha2
      obtain ⟨h1, h2⟩ := ih (cur ++ [a]) hcur2 w hw
      refine ⟨h1, fun c hc => ?_⟩
      obtain ⟨h3, h4⟩ := h2 c hc
      refine ⟨h3, ?_⟩
      rcases h4 with h4 | h4
      · rcases List.mem_append.1 h4 with h | h
        · exact Or.inl h
        · simp only [List.mem_singleton] at h
          subst h
          exact Or.inr (List.mem_cons_self _ _)
      · exact Or.inr (List.mem_cons_of_mem _ h4)

/-- Every field of a string is non-empty, free of white space, and made of
characters of the string. -/
theorem fields_mem (s w : List Char) (hw : w ∈ Fields s) :
    w ≠ [] ∧ ∀ c ∈ w, isSpace c = false ∧ c ∈ s := by
  obtain ⟨h1, h2⟩ := fieldsLoop_mem s [] (by simp) w hw
  refine ⟨h1, fun c hc => ?_⟩
  obtain ⟨h3, h4⟩ := h2 c hc
  refine ⟨h3, ?_⟩
  rcases h4 with h4 | h4
  · simp at h4
  · exact h4

/-- Splitting what `Join` built from white-space-free, non-empty parts with one
space between them gives the parts back. -/
theorem fields_join (parts : List (List Char))
    (h : ∀ w ∈ parts, w ≠ [] ∧ ∀ c ∈ w, isSpace c = false) :
    Fields (Join parts [' ']) = parts := by
  induction parts with
  | nil => simp [Join, Fields, fieldsLoop]
  | cons e rest ih =>
    obtain ⟨hne, hsp⟩ := h e (List.mem_cons_self _ _)
    have hrest : ∀ w ∈ rest, w ≠ [] ∧ ∀ c ∈ w, isSpace c = false :=
      fun w hw => h w (List.mem_cons_of_mem _ hw)
    cases rest with
    | nil =>
      have h1 := fieldsLoop_append_word e hsp [] []
      simp only [List.append_nil, List.nil_append] at h1
      simp only [Join, Fields, h1]
      cases e with
      | nil => exact absurd rfl hne
      | cons x xs => simp [fieldsLoop]
    | cons e2 es =>
      have h1 := fieldsLoop_append_word e hsp [] ([' '] ++ Join (e2 :: es) [' '])
      simp only [List.nil_append] at h1
      have h2 : Fields (Join (e2 :: es) [' ']) = e2 :: es := ih hrest
      unfold Fields at h2 ⊢
      simp only [Join, List.append_assoc, h1]
      have hs : isSpace ' ' = true := by decide
      cases e with
      | nil => exact absurd rfl hne
      | cons x xs =>
        simp only [List.singleton_append, fieldsLoop, hs, if_true, List.isEmpty_cons,
          Bool.false_eq_true, if_false, List.append_eq, List.nil_append, h2]

theorem join_eq_intercalate (parts : List (List Char)) (sep : List Char) :
    Join parts sep = sep.intercalate parts := by
  induction parts with
  | nil => simp [Join, List.intercalate]
  | cons e rest ih =>
    cases rest with
    | nil => simp [Join, List.intercalate]
    | cons e2 es =>
      rw [Join, ih]
      simp [List.intercalate, List.intersperse]

theorem join_mem (parts : List (List Char)) (sep : List Char) (c : Char)
    (hc : c ∈ Join parts sep) : c ∈ sep ∨ ∃ w ∈ parts, c ∈ w := by
  induction parts with
  | nil => simp [Join] at hc
  | cons e rest ih =>
    cases rest with
    | nil => exact Or.inr ⟨e, by simp, by simpa [Join] using hc⟩
    | cons e2 es =>
      simp only [Join, List.mem_append] at hc
      rcases hc with (hc | hc) | hc
      · exact Or.inr ⟨e, by simp, hc⟩
      · exact Or.inl hc
      · rcases ih hc with h | ⟨w, hw, hcw⟩
        · exact Or.inl h
        · exact Or.inr ⟨w, List.mem_cons_of_mem _ hw, hcw⟩

theorem join_head (e : List Char) (rest : List (List Char)) (sep : List Char) :
    ∃ t, Join (e :: rest) sep = e ++ t := by
  cases rest with
  | nil => exact ⟨[], by simp [Join]⟩
  | cons e2 es => exact ⟨sep ++ Join (e2 :: es) sep, by simp [Join]⟩

theorem join_last (parts : List (List Char)) (e : List Char) (sep : List Char) :
    ∃ t, Join (parts ++ [e]) sep = t ++ e := by
  induction parts with
  | nil => exact ⟨[], by simp [Join]⟩
  | cons a rest ih =>
    obtain ⟨t, ht⟩ := ih
    cases hr : rest ++ [e] with
    | nil => simp at hr
    | cons b bs =>
      rw [hr] at ht
      refine ⟨a ++ sep ++ t, ?_⟩
      simp only [List.cons_append, hr, Join, ht, List.append_assoc]

theorem trim_subset (s cutset : List Char) (c : Char) (hc : c ∈ Trim s cutset) : c ∈ s := by
  unfold Trim at hc
  have h1 := (List.dropWhile_suffix _).subset hc
  have h2 := (List.dropWhile_suffix _).subset (List.mem_reverse.1 h1)
  exact List.mem_reverse.1 h2

theorem dropWhile_backtick_of_not_mem (l : List Char) (h : backtick ∉ l) :
    (l ++ [backtick]).dropWhile (fun c => decide (c ∈ [backtick])) =
      if l = [] then [] else l ++ [backtick] := by
  cases l with
  | nil => simp
  | cons x xs =>
    have hx : x ≠ backtick := fun e => h (by simp [e])
    simp [List.dropWhile_cons, hx]

/-- Trimming back quotes off a raw string literal leaves the text between its
delimiters. -/
theorem trim_raw (content : List Char) (h : backtick ∉ content) :
    Trim (backtick :: content ++ [backtick]) [backtick] = content := by
  unfold Trim
  have hr : backtick ∉ content.reverse := by simpa using h
  have e1 : (backtick :: content ++ [backtick]).reverse
      = backtick :: (content.reverse ++ [backtick]) := by simp
  rw [e1, List.dropWhile_cons]
  simp only [List.mem_singleton, decide_True, if_true]
  have e2 := dropWhile_backtick_of_not_mem content.reverse hr
  simp only [List.mem_singleton] at e2
  rw [e2]
  by_cases hn : content = []
  · subst hn; simp
  · have hn2 : content.reverse ≠ [] := by simpa using hn
    rw [if_neg hn2]
    simp only [List.reverse_append, List.reverse_reverse, List.reverse_cons, List.reverse_nil,
      List.nil_append, List.singleton_append]
    rw [List.dropWhile_cons]
    simp only [decide_True, if_true]
    cases content with
    | nil => exact absurd rfl hn
    | cons x xs =>
      have hx : x ≠ backtick := fun e => h (by simp [e])
      simp [List.dropWhile_cons, hx]

/-! ## Facts about the two filtering loops -/

theorem foldl_append_eq_filter {α : Type} (p : α → Bool) (l : List α) :
    ∀ acc : List α,
      l.foldl (fun acc x => if p x then acc ++ [x] else acc) acc = acc ++ l.filter p := by
  induction l with
  | nil => intro acc; simp
  | cons a l ih =>
    intro acc
    by_cases h : p a = true
    · simp [List.foldl_cons, List.filter_cons, h, ih]
    · simp [List.foldl_cons, List.filter_cons, h, ih]

theorem newPartsOf_eq_filter (parts : List (List Char)) :
    newPartsOf parts = parts.filter (fun part => !HasPrefix part jsonColon) := by
  unfold newPartsOf
  rw [foldl_append_eq_filter (fun part => !HasPrefix part jsonColon) parts []]
  simp

theorem newCommentsOf_eq_filter (comments : List (Option CommentGroup)) :
    newCommentsOf comments = comments.filter (fun cg => !containsKubebuilder cg) := by
  unfold newCommentsOf
  rw [foldl_append_eq_filter (fun cg => !containsKubebuilder cg) comments []]
  simp

/-! ## Facts about tags -/

theorem split_at_first (x : Char) (p : List Char) (h : x ∈ p) :
    ∃ t, p = p.takeWhile (fun c => c != x) ++ x :: t := by
  induction p with
  | nil => simp at h
  | cons a p ih =>
    by_cases hax : a = x
    · subst hax
      exact ⟨p, by simp [List.takeWhile_cons]⟩
    · have hx : x ∈ p := by
        rcases List.mem_cons.1 h with h1 | h1
        · exact absurd h1.symm hax
        · exact h1
      obtain ⟨t, ht⟩ := ih hx
      refine ⟨t, ?_⟩
      have hne : (a != x) = true := by simpa using hax
      rw [List.takeWhile_cons, hne]
      simp only [if_true, List.cons_append]
      rw [← ht]

/-- A fragment starts with `json:` exactly when its key is `json`. -/
theorem hasPrefix_json_iff (p : List Char) :
    HasPrefix p jsonColon = true ↔ keyIsJson p = true := by
  rw [hasPrefix_iff]
  unfold keyIsJson keyOf
  simp only [Bool.and_eq_true, List.contains_eq_any_beq, List.any_eq_true, beq_iff_eq,
    exists_eq_right]
  constructor
  · rintro ⟨t, rfl⟩
    refine ⟨by simp [jsonColon], ?_⟩
    simp [jsonColon, List.takeWhile_cons]
  · rintro ⟨hm, hk⟩
    have hm2 : ':' ∈ p := by
      obtain ⟨x, hx, e⟩ := hm
      exact e ▸ hx
    obtain ⟨t, ht⟩ := split_at_first ':' p hm2
    rw [hk] at ht
    exact ⟨t, by rw [ht]; rfl⟩

theorem processFieldTag_eq (tag : BasicLit) :
    processFieldTag tag =
      if newPartsOf (Fields (Trim tag.value [backtick])) = [] then none
      else some { tag with value :=
        backtick :: (Join (newPartsOf (Fields (Trim tag.value [backtick]))) [' '] ++ [backtick]) } := by
  unfold processFieldTag
  by_cases h : newPartsOf (Fields (Trim tag.value [backtick])) = []
  · simp [h]
  · simp [h]

theorem newParts_mem (s w : List Char) (hw : w ∈ newPartsOf (Fields s)) :
    w ∈ Fields s ∧ HasPrefix w jsonColon = false := by
  rw [newPartsOf_eq_filter, List.mem_filter] at hw
  exact ⟨hw.1, by simpa using hw.2⟩

theorem newParts_words (s w : List Char) (hw : w ∈ newPartsOf (Fields s)) :
    w ≠ [] ∧ ∀ c ∈ w, isSpace c = false :=
  let h := fields_mem s w (newParts_mem s w hw).1
  ⟨h.1, fun c hc => (h.2 c hc).1⟩

theorem getLast_wrap (x y : Char) (l : List Char) : (x :: (l ++ [y])).getLast? = some y := by
  have e : x :: (l ++ [y]) = (x :: l) ++ [y] := rfl
  rw [e, List.getLast?_concat]

theorem tagContent_wrap (body : List Char) :
    tagContent (backtick :: (body ++ [backtick])) = body := by
  simp [tagContent]

theorem rawBody_wrap (body : List Char) (h : backtick ∉ body) :
    rawBody (body ++ [backtick]) = true := by
  induction body with
  | nil => simp [rawBody]
  | cons a body ih =>
    have ha : a ≠ backtick := fun e => h (by simp [e])
    have hb : backtick ∉ body := fun hm => h (List.mem_cons_of_mem _ hm)
    simp [rawBody, ha, ih hb]

theorem rawBody_split (r : List Char) (h : rawBody r = true) :
    ∃ body, r = body ++ [backtick] ∧ backtick ∉ body := by
  induction r with
  | nil => simp [rawBody] at h
  | cons a r ih =>
    by_cases ha : a = backtick
    · subst ha
      simp only [rawBody, beq_self_eq_true, if_true, List.isEmpty_eq_true] at h
      subst h
      exact ⟨[], by simp⟩
    · have hne : (a == backtick) = false := by simpa using ha
      simp only [rawBody, hne, Bool.false_eq_true, if_false] at h
      obtain ⟨body, hb, hn⟩ := ih h
      refine ⟨a :: body, by simp [hb], ?_⟩
      intro hm
      rcases List.mem_cons.1 hm with h1 | h1
      · exact ha h1.symm
      · exact hn h1

theorem isRawStringLit_split (v : List Char) (h : isRawStringLit v = true) :
    ∃ body, v = backtick :: (body ++ [backtick]) ∧ backtick ∉ body := by
  cases v with
  | nil => simp [isRawStringLit] at h
  | cons a r =>
    simp only [isRawStringLit, Bool.and_eq_true, beq_iff_eq] at h
    obtain ⟨body, hb, hn⟩ := rawBody_split r h.2
    exact ⟨body, by rw [h.1, hb], hn⟩

/-- The text `processFieldTag` puts between the back quotes holds a back quote
only if the trimmed tag did. -/
theorem join_newParts_no_backtick (s : List Char) (h : backtick ∉ s) :
    backtick ∉ Join (newPartsOf (Fields s)) [' '] := by
  intro hm
  rcases join_mem _ _ _ hm with h1 | ⟨w, hw, hc⟩
  · have : backtick ≠ ' ' := by decide
    simp only [List.mem_singleton] at h1
    exact this h1
  · exact h ((fields_mem s w (newParts_mem s w hw).1).2 backtick hc).2

theorem keyIsJson_iff (p : List Char) :
    keyIsJson p = true ↔ (':' ∈ p ∧ p.takeWhile (fun c => c != ':') = "json".toList) := by
  unfold keyIsJson keyOf
  simp only [Bool.and_eq_true, List.contains_eq_any_beq, List.any_eq_true, beq_iff_eq,
    exists_eq_right]
  constructor
  · rintro ⟨⟨x, hx, e⟩, hk⟩
    exact ⟨e ▸ hx, hk⟩
  · rintro ⟨hm, hk⟩
    exact ⟨⟨':', hm, rfl⟩, hk⟩

theorem fields_of_spaces (s : List Char) (h : ∀ c ∈ s, isSpace c = true) : Fields s = [] := by
  unfold Fields
  induction s with
  | nil => simp [fieldsLoop]
  | cons a s ih =>
    have ha : isSpace a = true := h a (List.mem_cons_self _ _)
    simp only [fieldsLoop, ha, if_true, List.isEmpty_nil]
    exact ih (fun c hc => h c (List.mem_cons_of_mem _ hc))

theorem newParts_eq_nil_iff (parts : List (List Char)) :
    newPartsOf parts = [] ↔ ∀ p ∈ parts, keyIsJson p = true := by
  rw [newPartsOf_eq_filter, List.filter_eq_nil_iff]
  constructor
  · intro h p hp
    have := h p hp
    rw [← hasPrefix_json_iff]
    simpa using this
  · intro h p hp
    have := (hasPrefix_json_iff p).2 (h p hp)
    simp [this]

theorem join_newParts_ends (s : List Char) (hne : newPartsOf (Fields s) ≠ []) :
    (∃ c, (Join (newPartsOf (Fields s)) [' ']).head? = some c ∧ isSpace c = false) ∧
    (∃ c, (Join (newPartsOf (Fields s)) [' ']).getLast? = some c ∧ isSpace c = false) := by
  constructor
  · cases hp : newPartsOf (Fields s) with
    | nil => exact absurd hp hne
    | cons e rest =>
      have hw := newParts_words s e (by rw [hp]; exact List.mem_cons_self _ _)
      obtain ⟨t, ht⟩ := join_head e rest [' ']
      cases e with
      | nil => exact absurd rfl hw.1
      | cons x xs =>
        exact ⟨x, by rw [ht]; rfl, hw.2 x (List.mem_cons_self _ _)⟩
  · rcases List.eq_nil_or_concat (newPartsOf (Fields s)) with hp | ⟨init, e, hp⟩
    · exact absurd hp hne
    · rw [List.concat_eq_append] at hp
      have hw := newParts_words s e (by rw [hp]; simp)
      obtain ⟨t, ht⟩ := join_last init e [' ']
      rw [hp, ht]
      rcases List.eq_nil_or_concat e with he | ⟨e1, y, he⟩
      · exact absurd he hw.1
      · rw [List.concat_eq_append] at he
        refine ⟨y, ?_, hw.2 y (by rw [he]; simp)⟩
        rw [he, ← List.append_assoc]
        simp

/-! ## The matcher: claims C1 and C2 -/

/-- C1: `containsKubebuilder` answers true exactly for a block that is present
and holds a comment whose text contains the case-sensitive substring
`kubebuilder` at some position; it answers false for an absent block, for a
block with no comment and for a block whose marker is spelt `Kubebuilder`, and
true where the marker sits inside a longer word. -/
theorem containsKubebuilder_iff_marker (cg : Option CommentGroup) :
    (containsKubebuilder cg = true ↔
      ∃ g, cg = some g ∧ ∃ c ∈ g.list, ∃ a b, c.text = a ++ "kubebuilder".toList ++ b)
    ∧ containsKubebuilder none = false
    ∧ containsKubebuilder (some ⟨[]⟩) = false
    ∧ containsKubebuilder (some ⟨[⟨1, "// +Kubebuilder:object:root=true".toList⟩]⟩) = false
    ∧ containsKubebuilder
        (some ⟨[⟨1, "// doc".toList⟩, ⟨8, "// mykubebuilders".toList⟩]⟩) = true := by
  refine ⟨?_, rfl, rfl, by decide, by decide⟩
  cases cg with
  | none => simp [containsKubebuilder]
  | some g =>
    simp only [containsKubebuilder, List.any_eq_true, contains_iff, kubebuilder,
      Option.some.injEq, exists_eq_left']

/-- C2: the filter of `processFieldTag` keeps a fragment exactly when it is not
the case that the fragment holds a `:` and its text before the first `:` is
exactly `json`; so `json:"a"` and `json:` are dropped and `jsonx:"a"`,
`myjson:"a"`, `JSON:"a"` and a bare `json` are kept. -/
theorem json_fragment_dropped_iff (parts : List (List Char)) (p : List Char) :
    (p ∈ newPartsOf parts ↔
      p ∈ parts ∧ ¬ (':' ∈ p ∧ p.takeWhile (fun c => c != ':') = "json".toList))
    ∧ newPartsOf ["json:\"a\"".toList, "jsonx:\"a\"".toList, "json:".toList,
        "myjson:\"a\"".toList, "JSON:\"a\"".toList, "json".toList]
      = ["jsonx:\"a\"".toList, "myjson:\"a\"".toList, "JSON:\"a\"".toList, "json".toList] := by
  refine ⟨?_, by decide⟩
  rw [← keyIsJson_iff, ← hasPrefix_json_iff]
  rw [newPartsOf_eq_filter, List.mem_filter]
  simp

/-! ## Facts about the walk of `processComments` -/

theorem docAfter_five (k : DocKind) (doc : Option CommentGroup) (h : k ∈ fiveKinds) :
    docAfter (k, doc) = (k, clearMarkedDoc doc) := by
  simp [docAfter, h]

mutual
theorem docsExpr_inspect : ∀ e : Expr,
    docsExpr (inspectCommentsExpr e) = (docsExpr e).map docAfter
  | .leaf _ _ => by simp [inspectCommentsExpr, docsExpr]
  | .node _ _ exprs => by simp [inspectCommentsExpr, docsExpr, docsExprs_inspect exprs]
  | .funcLit type body => by
    simp [inspectCommentsExpr, docsExpr, docsExpr_inspect type, docsStmt_inspect body]
  | .structType fields _ => by
    simp [inspectCommentsExpr, docsExpr, docsOptFieldList_inspect fields]
  | .funcType typeParams params results => by
    simp [inspectCommentsExpr, docsExpr, docsOptFieldList_inspect typeParams,
      docsOptFieldList_inspect params, docsOptFieldList_inspect results]
  | .interfaceType methods _ => by
    simp [inspectCommentsExpr, docsExpr, docsOptFieldList_inspect methods]
theorem docsExprs_inspect : ∀ es : List Expr,
    docsExprs (inspectCommentsExprs es) = (docsExprs es).map docAfter
  | [] => by simp [inspectCommentsExprs, docsExprs]
  | e :: es => by
    simp [inspectCommentsExprs, docsExprs, docsExpr_inspect e, docsExprs_inspect es]
theorem docsOptExpr_inspect : ∀ e : Option Expr,
    docsOptExpr (inspectCommentsOptExpr e) = (docsOptExpr e).map docAfter
  | none => by simp [inspectCommentsOptExpr, docsOptExpr]
  | some e => by simp [inspectCommentsOptExpr, docsOptExpr, docsExpr_inspect e]
theorem docsField_inspect : ∀ f : Field,
    docsField (inspectCommentsField f) = (docsField f).map docAfter
  | .mk doc _ type _ _ => by
    simp [inspectCommentsField, docsField, docsOptExpr_inspect type,
      docAfter_five DocKind.field doc (by decide)]
theorem docsFields_inspect : ∀ fs : List Field,
    docsFields (inspectCommentsFields fs) = (docsFields fs).map docAfter
  | [] => by simp [inspectCommentsFields, docsFields]
  | f :: fs => by
    simp [inspectCommentsFields, docsFields, docsField_inspect f, docsFields_inspect fs]
theorem docsFieldList_inspect : ∀ l : FieldList,
    docsFieldList (inspectCommentsFieldList l) = (docsFieldList l).map docAfter
  | .mk list => by simp [inspectCommentsFieldList, docsFieldList, docsFields_inspect list]
theorem docsOptFieldList_inspect : ∀ l : Option FieldList,
    docsOptFieldList (inspectCommentsOptFieldList l) = (docsOptFieldList l).map docAfter
  | none => by simp [inspectCommentsOptFieldList, docsOptFieldList]
  | some l => by
    simp [inspectCommentsOptFieldList, docsOptFieldList, docsFieldList_inspect l]
theorem docsStmt_inspect : ∀ s : Stmt,
    docsStmt (inspectCommentsStmt s) = (docsStmt s).map docAfter
  | .declStmt decl => by simp [inspectCommentsStmt, docsStmt, docsDecl_inspect decl]
  | .node _ _ exprs stmts => by
    simp [inspectCommentsStmt, docsStmt, docsExprs_inspect exprs, docsStmts_inspect stmts]
theorem docsStmts_inspect : ∀ ss : List Stmt,
    docsStmts (inspectCommentsStmts ss) = (docsStmts ss).map docAfter
  | [] => by simp [inspectCommentsStmts, docsStmts]
  | s :: ss => by
    simp [inspectCommentsStmts, docsStmts, docsStmt_inspect s, docsStmts_inspect ss]
theorem docsOptStmt_inspect : ∀ s : Option Stmt,
    docsOptStmt (inspectCommentsOptStmt s) = (docsOptStmt s).map docAfter
  | none => by simp [inspectCommentsOptStmt, docsOptStmt]
  | some s => by simp [inspectCommentsOptStmt, docsOptStmt, docsStmt_inspect s]
theorem docsSpec_inspect : ∀ s : Spec,
    docsSpec (inspectCommentsSpec s) = (docsSpec s).map docAfter
  | .importSpec doc _ _ _ => by
    simp [inspectCommentsSpec, docsSpec, docAfter, fiveKinds]
  | .valueSpec doc _ type values _ => by
    simp [inspectCommentsSpec, docsSpec, docsOptExpr_inspect type, docsExprs_inspect values,
      docAfter_five DocKind.valueSpec doc (by decide)]
  | .typeSpec doc _ typeParams type _ => by
    simp [inspectCommentsSpec, docsSpec, docsOptFieldList_inspect typeParams,
      docsExpr_inspect type, docAfter_five DocKind.typeSpec doc (by decide)]
theorem docsSpecs_inspect : ∀ ss : List Spec,
    docsSpecs (inspectCommentsSpecs ss) = (docsSpecs ss).map docAfter
  | [] => by simp [inspectCommentsSpecs, docsSpecs]
  | s :: ss => by
    simp [inspectCommentsSpecs, docsSpecs, docsSpec_inspect s, docsSpecs_inspect ss]
theorem docsDecl_inspect : ∀ d : Decl,
    docsDecl (inspectCommentsDecl d) = (docsDecl d).map docAfter
  | .badDecl => by simp [inspectCommentsDecl, docsDecl]
  | .genDecl doc _ specs => by
    simp [inspectCommentsDecl, docsDecl, docsSpecs_inspect specs,
      docAfter_five DocKind.genDecl doc (by decide)]
  | .funcDecl doc recv _ type body => by
    simp [inspectCommentsDecl, docsDecl, docsOptFieldList_inspect recv, docsExpr_inspect type,
      docsOptStmt_inspect body, docAfter_five DocKind.funcDecl doc (by decide)]
end

theorem docsDecls_inspect (ds : List Decl) :
    docsDecls (inspectCommentsDecls ds) = (docsDecls ds).map docAfter := by
  induction ds with
  | nil => simp [inspectCommentsDecls, docsDecls]
  | cons d ds ih => simp [inspectCommentsDecls, docsDecls, docsDecl_inspect d, ih]

/-- The documented nodes of the file `processComments` leaves are those of the
original file, each with the `Doc` the callback gives its kind. -/
theorem docNodes_processComments (file : File) :
    docNodes (processComments file) = (docNodes file).map docAfter := by
  simp [docNodes, processComments, docsDecls_inspect, docAfter, fiveKinds]

theorem clearMarkedDoc_eq (doc : Option CommentGroup) :
    clearMarkedDoc doc = if containsKubebuilder doc = true then none else doc := by
  cases doc with
  | none => simp [clearMarkedDoc, containsKubebuilder]
  | some g => simp [clearMarkedDoc]

theorem clearMarkedDoc_unmarked (doc : Option CommentGroup) :
    containsKubebuilder (clearMarkedDoc doc) = false := by
  rw [clearMarkedDoc_eq]
  by_cases h : containsKubebuilder doc = true
  · rw [if_pos h]; rfl
  · rw [if_neg h]; simpa using h

/-! ## The tree mutator: claims C3, C4 and C8 -/

/-- C3: after `processComments` the file-level comment sequence is the
original sequence filtered to the blocks for which `containsKubebuilder` is
false: a block is in the new sequence exactly when it was in the old one and
is unmarked, and the new sequence keeps the original relative order. -/
theorem processComments_file_comments (file : File) :
    (processComments file).comments
      = file.comments.filter (fun cg => !containsKubebuilder cg)
    ∧ (∀ cg, cg ∈ (processComments file).comments ↔
        cg ∈ file.comments ∧ containsKubebuilder cg = false)
    ∧ List.Sublist (processComments file).comments file.comments := by
  have h : (processComments file).comments
      = file.comments.filter (fun cg => !containsKubebuilder cg) :=
    newCommentsOf_eq_filter file.comments
  refine ⟨h, fun cg => ?_, ?_⟩
  · rw [h, List.mem_filter]
    simp
  · rw [h]
    exact List.filter_sublist _

/-- C4: the file `processComments` leaves has the same documented nodes in the
same places, and the node of kind `GenDecl`, `FuncDecl`, `TypeSpec`, `Field` or
`ValueSpec` at any place of the walk has no `Doc` if its original `Doc` was
present and marked, and its original `Doc` otherwise. -/
theorem processComments_node_docs (file : File) :
    (docNodes (processComments file)).length = (docNodes file).length
    ∧ ∀ (i : Nat) (k : DocKind) (doc : Option CommentGroup),
        (docNodes file)[i]? = some (k, doc) → k ∈ fiveKinds →
        (docNodes (processComments file))[i]?
          = some (k, if doc ≠ none ∧ containsKubebuilder doc = true then none else doc) := by
  rw [docNodes_processComments]
  refine ⟨by simp, fun i k doc hi hk => ?_⟩
  rw [List.getElem?_map, hi, Option.map_some', docAfter_five k doc hk, clearMarkedDoc_eq]
  cases doc with
  | none => simp [containsKubebuilder]
  | some g => simp

/-- C8 fails for the nodes the callback has no case for: in the file whose
package documentation and whose import documentation hold the marker,
`processComments` empties the file-level sequence, and the marked blocks stay
attached as the `Doc` of the file and of the import spec. -/
theorem marked_doc_survives :
    (processComments pkgDocFile).comments = []
    ∧ (processComments pkgDocFile).doc = some markerGroup
    ∧ containsKubebuilder (processComments pkgDocFile).doc = true
    ∧ docNodes (processComments pkgDocFile)
        = [(DocKind.file, some markerGroup), (DocKind.genDecl, none),
           (DocKind.importSpec, some importMarkerGroup)]
    ∧ containsKubebuilder (some importMarkerGroup) = true := by
  decide

/-- C8 as amended: after `processComments` no block of the file-level comment
sequence contains the marker, and no node of kind `GenDecl`, `FuncDecl`,
`TypeSpec`, `Field` or `ValueSpec`, at any depth, has a `Doc` that contains
it. -/
theorem processComments_marker_complete (file : File) :
    (∀ cg ∈ (processComments file).comments, containsKubebuilder cg = false)
    ∧ ∀ (k : DocKind) (doc : Option CommentGroup),
        (k, doc) ∈ docNodes (processComments file) → k ∈ fiveKinds →
        containsKubebuilder doc = false := by
  constructor
  · intro cg hcg
    have h : (processComments file).comments
        = file.comments.filter (fun cg => !containsKubebuilder cg) :=
      newCommentsOf_eq_filter file.comments
    rw [h, List.mem_filter] at hcg
    simpa using hcg.2
  · intro k doc hm hk
    rw [docNodes_processComments, List.mem_map] at hm
    obtain ⟨⟨k0, d0⟩, _, he⟩ := hm
    by_cases h5 : k0 ∈ fiveKinds
    · rw [docAfter_five k0 d0 h5, Prod.mk.injEq] at he
      rw [← he.2]
      exact clearMarkedDoc_unmarked d0
    · have hk0 : docAfter (k0, d0) = (k0, d0) := by simp [docAfter, h5]
      rw [hk0, Prod.mk.injEq] at he
      exact absurd (he.1 ▸ hk) h5

/-! ## Tag rewriting: claims C5, C6, C7, C9 and C10 -/

/-- C5: for a tag that is a raw string literal (back quotes around a content
with no back quote) with at least one retained fragment, `processFieldTag`
sets the tag value to a back quote, the retained fragments in their original
order with exactly one space between neighbours and none at either end, and a
back quote; splitting the new content on white space gives the retained
fragments back. -/
theorem processFieldTag_raw_rejoin (tag : BasicLit) (content : List Char)
    (hv : tag.value = backtick :: (content ++ [backtick])) (hc : backtick ∉ content)
    (hne : newPartsOf (Fields content) ≠ []) :
    ∃ t, processFieldTag tag = some t
      ∧ t.value = [backtick] ++ [' '].intercalate (newPartsOf (Fields content)) ++ [backtick]
      ∧ List.Sublist (newPartsOf (Fields content)) (Fields content)
      ∧ (∃ c, (tagContent t.value).head? = some c ∧ isSpace c = false)
      ∧ (∃ c, (tagContent t.value).getLast? = some c ∧ isSpace c = false)
      ∧ Fields (tagContent t.value) = newPartsOf (Fields content)
      ∧ t.valuePos = tag.valuePos ∧ t.kind = tag.kind := by
  have ht : Trim tag.value [backtick] = content := by rw [hv]; exact trim_raw content hc
  refine ⟨{ tag with value :=
      backtick :: (Join (newPartsOf (Fields content)) [' '] ++ [backtick]) }, ?_, ?_, ?_, ?_, ?_,
      ?_, rfl, rfl⟩
  · rw [processFieldTag_eq, ht, if_neg hne]
  · simp [join_eq_intercalate]
  · rw [newPartsOf_eq_filter]; exact List.filter_sublist _
  · rw [tagContent_wrap]; exact (join_newParts_ends content hne).1
  · rw [tagContent_wrap]; exact (join_newParts_ends content hne).2
  · rw [tagContent_wrap]
    exact fields_join _ (fun w hw => newParts_words content w hw)

/-- C5 at the tag `json:"name" yaml:"name"` between back quotes. -/
theorem processFieldTag_raw_rejoin_witness :
    ∃ t, processFieldTag tagJsonYaml = some t
      ∧ t.value = [backtick] ++ [' '].intercalate
          (newPartsOf (Fields "json:\"name\" yaml:\"name\"".toList)) ++ [backtick]
      ∧ Fields (tagContent t.value) = newPartsOf (Fields "json:\"name\" yaml:\"name\"".toList) :=
  let ⟨t, h1, h2, _, _, _, h6, _⟩ :=
    processFieldTag_raw_rejoin tagJsonYaml "json:\"name\" yaml:\"name\"".toList
      (by decide) (by decide) (by decide)
  ⟨t, h1, h2, h6⟩

/-- In terms of the text the code splits, the tag value trimmed of back quotes:
`processFieldTag` clears the tag exactly when every fragment of that text has
key `json`; for a value that is a content between back quotes the text is the
content; and a tag that is still present has a content with a character that
is not white space. -/
theorem processFieldTag_none_iff_trimmed (tag : BasicLit) :
    (processFieldTag tag = none ↔
      ∀ p ∈ Fields (Trim tag.value [backtick]), keyIsJson p = true)
    ∧ (∀ content, backtick ∉ content → tag.value = backtick :: (content ++ [backtick]) →
        ((processFieldTag tag = none ↔ ∀ p ∈ Fields content, keyIsJson p = true)
          ∧ ((∀ c ∈ content, isSpace c = true) → processFieldTag tag = none)))
    ∧ (∀ t, processFieldTag tag = some t → ∃ c ∈ tagContent t.value, isSpace c = false)
    ∧ processFieldTag tagJsonId = none
    ∧ processFieldTag ⟨0, 9, "\x60\x60".toList⟩ = none
    ∧ processFieldTag ⟨0, 9, "\x60 \t \x60".toList⟩ = none := by
  have key : processFieldTag tag = none ↔
      ∀ p ∈ Fields (Trim tag.value [backtick]), keyIsJson p = true := by
    rw [processFieldTag_eq, ← newParts_eq_nil_iff]
    by_cases h : newPartsOf (Fields (Trim tag.value [backtick])) = []
    · simp [h]
    · simp [h]
  refine ⟨key, ?_, ?_, by decide, by decide, by decide⟩
  · intro content hc hv
    have ht : Trim tag.value [backtick] = content := by rw [hv]; exact trim_raw content hc
    rw [ht] at key
    refine ⟨key, fun hs => key.2 ?_⟩
    rw [fields_of_spaces content hs]
    simp
  · intro t ht
    rw [processFieldTag_eq] at ht
    by_cases h : newPartsOf (Fields (Trim tag.value [backtick])) = []
    · simp [h] at ht
    · rw [if_neg h, Option.some.injEq] at ht
      subst ht
      obtain ⟨c, hc, hsp⟩ := (join_newParts_ends _ h).1
      refine ⟨c, ?_, hsp⟩
      show c ∈ tagContent (backtick :: (Join _ [' '] ++ [backtick]))
      rw [tagContent_wrap]
      exact List.mem_of_mem_head? hc

/-- C6 fails for double-quoted tags: the interpreted literals `"json:\"id\""`,
`""` and `"  "` are well-formed, their contents (the literal without its
delimiters) are a single `json:` fragment, empty and two spaces, so none has a
retained fragment, and `processFieldTag` keeps each tag, wrapping the literal
with its double quotes in back quotes. -/
theorem quoted_json_tag_is_kept :
    (isInterpretedStringLit tagQuotedJsonId.value = true
      ∧ Fields (tagContent tagQuotedJsonId.value) = ["json:\\\"id\\\"".toList]
      ∧ (Fields (tagContent tagQuotedJsonId.value)).all keyIsJson = true
      ∧ newPartsOf (Fields (tagContent tagQuotedJsonId.value)) = []
      ∧ processFieldTag tagQuotedJsonId
          = some ⟨0, 9, "\x60\"json:\\\"id\\\"\"\x60".toList⟩)
    ∧ (isInterpretedStringLit tagQuotedEmpty.value = true
      ∧ tagContent tagQuotedEmpty.value = []
      ∧ processFieldTag tagQuotedEmpty = some ⟨0, 9, "\x60\"\"\x60".toList⟩)
    ∧ (isInterpretedStringLit tagQuotedBlank.value = true
      ∧ tagContent tagQuotedBlank.value = "  ".toList
      ∧ newPartsOf (Fields (tagContent tagQuotedBlank.value)) = []
      ∧ processFieldTag tagQuotedBlank = some ⟨0, 9, "\x60\" \"\x60".toList⟩) := by
  decide

/-- C6 as amended: for a tag that is a raw string literal, `processFieldTag`
clears the tag exactly when its content (the literal without its delimiters)
has no retained fragment, that is when every fragment of the content has key
`json`, which is so for an empty and for a white-space-only content; the tag
`json:"id"` alone, the empty tag and a blank tag are cleared; and, for every
tag, a tag that is still present has a content with a character that is not
white space. -/
theorem processFieldTag_raw_clears_iff (tag : BasicLit)
    (hraw : isRawStringLit tag.value = true) :
    (processFieldTag tag = none ↔ newPartsOf (Fields (tagContent tag.value)) = [])
    ∧ (processFieldTag tag = none ↔
        ∀ p ∈ Fields (tagContent tag.value), keyIsJson p = true)
    ∧ (tagContent tag.value = [] → processFieldTag tag = none)
    ∧ ((∀ c ∈ tagContent tag.value, isSpace c = true) → processFieldTag tag = none)
    ∧ (∀ tag2 t : BasicLit, processFieldTag tag2 = some t →
        tagContent t.value ≠ [] ∧ ∃ c ∈ tagContent t.value, isSpace c = false)
    ∧ processFieldTag tagJsonId = none
    ∧ processFieldTag tagEmpty = none
    ∧ processFieldTag tagBlank = none := by
  obtain ⟨body, hb, hn⟩ := isRawStringLit_split _ hraw
  have hcont : tagContent tag.value = body := by rw [hb]; exact tagContent_wrap body
  obtain ⟨_, hcontent, _⟩ := processFieldTag_none_iff_trimmed tag
  obtain ⟨hiff, hspace⟩ := hcontent body hn hb
  rw [hcont]
  refine ⟨?_, hiff, ?_, hspace, ?_, by decide, by decide, by decide⟩
  · rw [newParts_eq_nil_iff]; exact hiff
  · intro he
    exact hspace (by rw [he]; simp)
  · intro tag2 t ht
    obtain ⟨c, hc, hsp⟩ := (processFieldTag_none_iff_trimmed tag2).2.2.1 t ht
    exact ⟨List.ne_nil_of_mem hc, c, hc, hsp⟩

/-- C6 as amended, at the tag `json:"id"` between back quotes. -/
theorem processFieldTag_raw_clears_iff_witness :
    isRawStringLit tagJsonId.value = true
    ∧ (processFieldTag tagJsonId = none ↔
        ∀ p ∈ Fields (tagContent tagJsonId.value), keyIsJson p = true)
    ∧ processFieldTag tagJsonId = none :=
  ⟨by decide, (processFieldTag_raw_clears_iff tagJsonId (by decide)).2.1,
    (processFieldTag_raw_clears_iff tagJsonId (by decide)).2.2.2.2.2.1⟩

/-- C7: after `processFieldTag` either the field has no tag, or no fragment of
the new tag's content (the literal without its delimiters, split on white
space) has a key that is exactly `json`. -/
theorem processFieldTag_no_json_key (tag : BasicLit) :
    processFieldTag tag = none ∨
    ∃ t, processFieldTag tag = some t ∧
      ∀ p ∈ Fields (tagContent t.value),
        ¬ (':' ∈ p ∧ p.takeWhile (fun c => c != ':') = "json".toList) := by
  rw [processFieldTag_eq]
  by_cases h : newPartsOf (Fields (Trim tag.value [backtick])) = []
  · exact Or.inl (by simp [h])
  · refine Or.inr ⟨_, by rw [if_neg h], ?_⟩
    show ∀ p ∈ Fields (tagContent (backtick :: (Join _ [' '] ++ [backtick]))), _
    rw [tagContent_wrap, fields_join _ (fun w hw => newParts_words _ w hw)]
    intro p hp
    rw [← keyIsJson_iff, ← hasPrefix_json_iff, (newParts_mem _ p hp).2]
    simp

/-- C9 fails for a double-quoted tag: the interpreted literal `"yaml:\"a\""`
starts and ends with a double quote, and the value `processFieldTag` leaves
starts and ends with a back quote. -/
theorem rewrap_changes_delimiter :
    isInterpretedStringLit tagQuotedYaml.value = true
    ∧ tagQuotedYaml.value.head? = some dquote
    ∧ tagQuotedYaml.value.getLast? = some dquote
    ∧ (processFieldTag tagQuotedYaml).map (fun t => t.value.head?) = some (some backtick)
    ∧ (processFieldTag tagQuotedYaml).map (fun t => t.value.getLast?) = some (some backtick)
    ∧ (processFieldTag tagQuotedYaml).map (fun t => t.value)
        = some "\x60\"yaml:\\\"a\\\"\"\x60".toList := by
  decide

/-- C9 as amended: a tag that is rewritten rather than cleared gets a value
that starts and ends with a back quote, whatever delimited the original; so
a back-quoted tag keeps its delimiters. -/
theorem processFieldTag_rewraps_in_backticks (tag t : BasicLit)
    (h : processFieldTag tag = some t) :
    t.value.head? = some backtick ∧ t.value.getLast? = some backtick
    ∧ (isRawStringLit tag.value = true →
        t.value.head? = tag.value.head? ∧ t.value.getLast? = tag.value.getLast?) := by
  rw [processFieldTag_eq] at h
  by_cases hn : newPartsOf (Fields (Trim tag.value [backtick])) = []
  · simp [hn] at h
  · rw [if_neg hn, Option.some.injEq] at h
    subst h
    have h1 : (backtick :: (Join (newPartsOf (Fields (Trim tag.value [backtick]))) [' ']
        ++ [backtick])).getLast? = some backtick := getLast_wrap _ _ _
    refine ⟨rfl, h1, fun hr => ?_⟩
    obtain ⟨body, hb, _⟩ := isRawStringLit_split _ hr
    refine ⟨by rw [hb]; rfl, ?_⟩
    show (backtick :: (Join _ [' '] ++ [backtick])).getLast? = _
    rw [h1, hb, getLast_wrap]

/-- C9 as amended, at the tag `json:"name" yaml:"name"` between back quotes. -/
theorem processFieldTag_rewraps_in_backticks_witness :
    processFieldTag tagJsonYaml = some ⟨0, 9, "\x60yaml:\"name\"\x60".toList⟩
    ∧ ("\x60yaml:\"name\"\x60".toList.head? = some backtick
      ∧ "\x60yaml:\"name\"\x60".toList.getLast? = some backtick
      ∧ (isRawStringLit tagJsonYaml.value = true →
          "\x60yaml:\"name\"\x60".toList.head? = tagJsonYaml.value.head?
          ∧ "\x60yaml:\"name\"\x60".toList.getLast? = tagJsonYaml.value.getLast?)) :=
  ⟨by decide, processFieldTag_rewraps_in_backticks tagJsonYaml
    ⟨0, 9, "\x60yaml:\"name\"\x60".toList⟩ (by decide)⟩

/-- C10 fails for a double-quoted tag that holds a back quote: the
interpreted literal `"k:\"a\x60b\""` is a well-formed string literal, and the
value `processFieldTag` leaves, the same text between back quotes, is neither a
raw nor an interpreted string literal. -/
theorem rewrap_breaks_literal :
    isStringLit tagQuotedBacktick.value = true
    ∧ (processFieldTag tagQuotedBacktick).map (fun t => t.value)
        = some "\x60\"k:\\\"a\x60b\\\"\"\x60".toList
    ∧ (processFieldTag tagQuotedBacktick).map (fun t => isStringLit t.value) = some false := by
  decide

/-- C10 as amended: for a tag that is a raw string literal, or an interpreted
string literal that holds no back quote, the value `processFieldTag` leaves,
when the tag is not cleared, is a well-formed (raw) string literal. -/
theorem processFieldTag_keeps_wellformed (tag t : BasicLit)
    (hwf : isRawStringLit tag.value = true
      ∨ (isInterpretedStringLit tag.value = true ∧ backtick ∉ tag.value))
    (h : processFieldTag tag = some t) :
    isRawStringLit t.value = true ∧ isStringLit t.value = true := by
  have hno : backtick ∉ Trim tag.value [backtick] := by
    rcases hwf with hr | ⟨_, hq⟩
    · obtain ⟨body, hb, hn⟩ := isRawStringLit_split _ hr
      have ht : Trim (backtick :: (body ++ [backtick])) [backtick] = body := trim_raw body hn
      rw [hb, ht]
      exact hn
    · exact fun hm => hq (trim_subset _ _ _ hm)
  rw [processFieldTag_eq] at h
  by_cases hn : newPartsOf (Fields (Trim tag.value [backtick])) = []
  · simp [hn] at h
  · rw [if_neg hn, Option.some.injEq] at h
    subst h
    have hraw : isRawStringLit (backtick :: (Join (newPartsOf
        (Fields (Trim tag.value [backtick]))) [' '] ++ [backtick])) = true := by
      simp only [isRawStringLit, beq_self_eq_true, Bool.true_and]
      exact rawBody_wrap _ (join_newParts_no_backtick _ hno)
    exact ⟨hraw, by unfold isStringLit; rw [Bool.or_eq_true]; exact Or.inl hraw⟩

/-- C10 as amended, at the interpreted literal `"yaml:\"a\""`. -/
theorem processFieldTag_keeps_wellformed_witness :
    (isInterpretedStringLit tagQuotedYaml.value = true ∧ backtick ∉ tagQuotedYaml.value)
    ∧ processFieldTag tagQuotedYaml = some ⟨0, 9, "\x60\"yaml:\\\"a\\\"\"\x60".toList⟩
    ∧ isRawStringLit "\x60\"yaml:\\\"a\\\"\"\x60".toList = true
    ∧ isStringLit "\x60\"yaml:\\\"a\\\"\"\x60".toList = true :=
  ⟨by decide, by decide,
    processFieldTag_keeps_wellformed tagQuotedYaml ⟨0, 9, "\x60\"yaml:\\\"a\\\"\"\x60".toList⟩
      (Or.inr (by decide)) (by decide)⟩

/-! ## Facts about the walk of `processStructTags` -/

theorem tagAfter_mk (b : Bool) (tag : Option BasicLit) :
    tagAfter (b, tag) = (b, if b then processTagOf tag else tag) := by
  cases tag <;> rfl

mutual
theorem tagsExpr_inspectTags : ∀ e : Expr,
    tagsExpr (inspectTagsExpr e) = (tagsExpr e).map tagAfter
  | .leaf _ _ => by simp [inspectTagsExpr, tagsExpr]
  | .node _ _ exprs => by simp [inspectTagsExpr, tagsExpr, tagsExprs_inspectTags exprs]
  | .funcLit type body => by
    simp [inspectTagsExpr, tagsExpr, tagsExpr_inspectTags type, tagsStmt_inspectTags body]
  | .structType fields _ => by
    simp [inspectTagsExpr, tagsExpr, tagsOptFieldList_inspectTags true fields]
  | .funcType typeParams params results => by
    simp [inspectTagsExpr, tagsExpr, tagsOptFieldList_inspectTags false typeParams,
      tagsOptFieldList_inspectTags false params, tagsOptFieldList_inspectTags false results]
  | .interfaceType methods _ => by
    simp [inspectTagsExpr, tagsExpr, tagsOptFieldList_inspectTags false methods]
theorem tagsExprs_inspectTags : ∀ es : List Expr,
    tagsExprs (inspectTagsExprs es) = (tagsExprs es).map tagAfter
  | [] => by simp [inspectTagsExprs, tagsExprs]
  | e :: es => by
    simp [inspectTagsExprs, tagsExprs, tagsExpr_inspectTags e, tagsExprs_inspectTags es]
theorem tagsOptExpr_inspectTags : ∀ e : Option Expr,
    tagsOptExpr (inspectTagsOptExpr e) = (tagsOptExpr e).map tagAfter
  | none => by simp [inspectTagsOptExpr, tagsOptExpr]
  | some e => by simp [inspectTagsOptExpr, tagsOptExpr, tagsExpr_inspectTags e]
theorem tagsField_inspectTags : ∀ (b : Bool) (f : Field),
    tagsField b (inspectTagsField b f) = (tagsField b f).map tagAfter
  | b, .mk _ _ type tag _ => by
    simp [inspectTagsField, tagsField, tagsOptExpr_inspectTags type, tagAfter_mk]
theorem tagsFields_inspectTags : ∀ (b : Bool) (fs : List Field),
    tagsFields b (inspectTagsFields b fs) = (tagsFields b fs).map tagAfter
  | _, [] => by simp [inspectTagsFields, tagsFields]
  | b, f :: fs => by
    simp [inspectTagsFields, tagsFields, tagsField_inspectTags b f,
      tagsFields_inspectTags b fs]
theorem tagsFieldList_inspectTags : ∀ (b : Bool) (l : FieldList),
    tagsFieldList b (inspectTagsFieldList b l) = (tagsFieldList b l).map tagAfter
  | b, .mk list => by
    simp [inspectTagsFieldList, tagsFieldList, tagsFields_inspectTags b list]
theorem tagsOptFieldList_inspectTags : ∀ (b : Bool) (l : Option FieldList),
    tagsOptFieldList b (inspectTagsOptFieldList b l) = (tagsOptFieldList b l).map tagAfter
  | _, none => by simp [inspectTagsOptFieldList, tagsOptFieldList]
  | b, some l => by
    simp [inspectTagsOptFieldList, tagsOptFieldList, tagsFieldList_inspectTags b l]
theorem tagsStmt_inspectTags : ∀ s : Stmt,
    tagsStmt (inspectTagsStmt s) = (tagsStmt s).map tagAfter
  | .declStmt decl => by simp [inspectTagsStmt, tagsStmt, tagsDecl_inspectTags decl]
  | .node _ _ exprs stmts => by
    simp [inspectTagsStmt, tagsStmt, tagsExprs_inspectTags exprs, tagsStmts_inspectTags stmts]
theorem tagsStmts_inspectTags : ∀ ss : List Stmt,
    tagsStmts (inspectTagsStmts ss) = (tagsStmts ss).map tagAfter
  | [] => by simp [inspectTagsStmts, tagsStmts]
  | s :: ss => by
    simp [inspectTagsStmts, tagsStmts, tagsStmt_inspectTags s, tagsStmts_inspectTags ss]
theorem tagsOptStmt_inspectTags : ∀ s : Option Stmt,
    tagsOptStmt (inspectTagsOptStmt s) = (tagsOptStmt s).map tagAfter
  | none => by simp [inspectTagsOptStmt, tagsOptStmt]
  | some s => by simp [inspectTagsOptStmt, tagsOptStmt, tagsStmt_inspectTags s]
theorem tagsSpec_inspectTags : ∀ s : Spec,
    tagsSpec (inspectTagsSpec s) = (tagsSpec s).map tagAfter
  | .importSpec _ _ _ _ => by simp [inspectTagsSpec, tagsSpec]
  | .valueSpec _ _ type values _ => by
    simp [inspectTagsSpec, tagsSpec, tagsOptExpr_inspectTags type,
      tagsExprs_inspectTags values]
  | .typeSpec _ _ typeParams type _ => by
    simp [inspectTagsSpec, tagsSpec, tagsOptFieldList_inspectTags false typeParams,
      tagsExpr_inspectTags type]
theorem tagsSpecs_inspectTags : ∀ ss : List Spec,
    tagsSpecs (inspectTagsSpecs ss) = (tagsSpecs ss).map tagAfter
  | [] => by simp [inspectTagsSpecs, tagsSpecs]
  | s :: ss => by
    simp [inspectTagsSpecs, tagsSpecs, tagsSpec_inspectTags s, tagsSpecs_inspectTags ss]
theorem tagsDecl_inspectTags : ∀ d : Decl,
    tagsDecl (inspectTagsDecl d) = (tagsDecl d).map tagAfter
  | .badDecl => by simp [inspectTagsDecl, tagsDecl]
  | .genDecl _ _ specs => by simp [inspectTagsDecl, tagsDecl, tagsSpecs_inspectTags specs]
  | .funcDecl _ recv _ type body => by
    simp [inspectTagsDecl, tagsDecl, tagsOptFieldList_inspectTags false recv,
      tagsExpr_inspectTags type, tagsOptStmt_inspectTags body]
end

theorem tagsDecls_inspectTags (ds : List Decl) :
    tagsDecls (inspectTagsDecls ds) = (tagsDecls ds).map tagAfter := by
  induction ds with
  | nil => simp [inspectTagsDecls, tagsDecls]
  | cons d ds ih => simp [inspectTagsDecls, tagsDecls, tagsDecl_inspectTags d, ih]

/-! ## The two walks touch disjoint parts of the tree -/

mutual
theorem tagsExpr_inspectComments : ∀ e : Expr,
    tagsExpr (inspectCommentsExpr e) = tagsExpr e
  | .leaf _ _ => by simp [inspectCommentsExpr, tagsExpr]
  | .node _ _ exprs => by simp [inspectCommentsExpr, tagsExpr, tagsExprs_inspectComments exprs]
  | .funcLit type body => by
    simp [inspectCommentsExpr, tagsExpr, tagsExpr_inspectComments type, tagsStmt_inspectComments body]
  | .structType fields _ => by
    simp [inspectCommentsExpr, tagsExpr, tagsOptFieldList_inspectComments true fields]
  | .funcType typeParams params results => by
    simp [inspectCommentsExpr, tagsExpr, tagsOptFieldList_inspectComments false typeParams,
      tagsOptFieldList_inspectComments false params, tagsOptFieldList_inspectComments false results]
  | .interfaceType methods _ => by
    simp [inspectCommentsExpr, tagsExpr, tagsOptFieldList_inspectComments false methods]
theorem tagsExprs_inspectComments : ∀ es : List Expr,
    tagsExprs (inspectCommentsExprs es) = tagsExprs es
  | [] => by simp [inspectCommentsExprs, tagsExprs]
  | e :: es => by
    simp [inspectCommentsExprs, tagsExprs, tagsExpr_inspectComments e, tagsExprs_inspectComments es]
theorem tagsOptExpr_inspectComments : ∀ e : Option Expr,
    tagsOptExpr (inspectCommentsOptExpr e) = tagsOptExpr e
  | none => by simp [inspectCommentsOptExpr, tagsOptExpr]
  | some e => by simp [inspectCommentsOptExpr, tagsOptExpr, tagsExpr_inspectComments e]
theorem tagsField_inspectComments : ∀ (b : Bool) (f : Field),
    tagsField b (inspectCommentsField f) = tagsField b f
  | b, .mk _ _ type tag _ => by
    simp [inspectCommentsField, tagsField, tagsOptExpr_inspectComments type]
theorem tagsFields_inspectComments : ∀ (b : Bool) (fs : List Field),
    tagsFields b (inspectCommentsFields fs) = tagsFields b fs
  | _, [] => by simp [inspectCommentsFields, tagsFields]
  | b, f :: fs => by
    simp [inspectCommentsFields, tagsFields, tagsField_inspectComments b f,
      tagsFields_inspectComments b fs]
theorem tagsFieldList_inspectComments : ∀ (b : Bool) (l : FieldList),
    tagsFieldList b (inspectCommentsFieldList l) = tagsFieldList b l
  | b, .mk list => by
    simp [inspectCommentsFieldList, tagsFieldList, tagsFields_inspectComments b list]
theorem tagsOptFieldList_inspectComments : ∀ (b : Bool) (l : Option FieldList),
    tagsOptFieldList b (inspectCommentsOptFieldList l) = tagsOptFieldList b l
  | _, none => by simp [inspectCommentsOptFieldList, tagsOptFieldList]
  | b, some l => by
    simp [inspectCommentsOptFieldList, tagsOptFieldList, tagsFieldList_inspectComments b l]
theorem tagsStmt_inspectComments : ∀ s : Stmt,
    tagsStmt (inspectCommentsStmt s) = tagsStmt s
  | .declStmt decl => by simp [inspectCommentsStmt, tagsStmt, tagsDecl_inspectComments decl]
  | .node _ _ exprs stmts => by
    simp [inspectCommentsStmt, tagsStmt, tagsExprs_inspectComments exprs, tagsStmts_inspectComments stmts]
theorem tagsStmts_inspectComments : ∀ ss : List Stmt,
    tagsStmts (inspectCommentsStmts ss) = tagsStmts ss
  | [] => by simp [inspectCommentsStmts, tagsStmts]
  | s :: ss => by
    simp [inspectCommentsStmts, tagsStmts, tagsStmt_inspectComments s, tagsStmts_inspectComments ss]
theorem tagsOptStmt_inspectComments : ∀ s : Option Stmt,
    tagsOptStmt (inspectCommentsOptStmt s) = tagsOptStmt s
  | none => by simp [inspectCommentsOptStmt, tagsOptStmt]
  | some s => by simp [inspectCommentsOptStmt, tagsOptStmt, tagsStmt_inspectComments s]
theorem tagsSpec_inspectComments : ∀ s : Spec,
    tagsSpec (inspectCommentsSpec s) = tagsSpec s
  | .importSpec _ _ _ _ => by simp [inspectCommentsSpec, tagsSpec]
  | .valueSpec _ _ type values _ => by
    simp [inspectCommentsSpec, tagsSpec, tagsOptExpr_inspectComments type,
      tagsExprs_inspectComments values]
  | .typeSpec _ _ typeParams type _ => by
    simp [inspectCommentsSpec, tagsSpec, tagsOptFieldList_inspectComments false typeParams,
      tagsExpr_inspectComments type]
theorem tagsSpecs_inspectComments : ∀ ss : List Spec,
    tagsSpecs (inspectCommentsSpecs ss) = tagsSpecs ss
  | [] => by simp [inspectCommentsSpecs, tagsSpecs]
  | s :: ss => by
    simp [inspectCommentsSpecs, tagsSpecs, tagsSpec_inspectComments s, tagsSpecs_inspectComments ss]
theorem tagsDecl_inspectComments : ∀ d : Decl,
    tagsDecl (inspectCommentsDecl d) = tagsDecl d
  | .badDecl => by simp [inspectCommentsDecl, tagsDecl]
  | .genDecl _ _ specs => by simp [inspectCommentsDecl, tagsDecl, tagsSpecs_inspectComments specs]
  | .funcDecl _ recv _ type body => by
    simp [inspectCommentsDecl, tagsDecl, tagsOptFieldList_inspectComments false recv,
      tagsExpr_inspectComments type, tagsOptStmt_inspectComments body]
end

theorem tagsDecls_inspectComments (ds : List Decl) :
    tagsDecls (inspectCommentsDecls ds) = tagsDecls ds := by
  induction ds with
  | nil => simp [inspectCommentsDecls, tagsDecls]
  | cons d ds ih => simp [inspectCommentsDecls, tagsDecls, tagsDecl_inspectComments d, ih]

mutual
theorem docsExpr_inspectTags : ∀ e : Expr,
    docsExpr (inspectTagsExpr e) = docsExpr e
  | .leaf _ _ => by simp [inspectTagsExpr, docsExpr]
  | .node _ _ exprs => by simp [inspectTagsExpr, docsExpr, docsExprs_inspectTags exprs]
  | .funcLit type body => by
    simp [inspectTagsExpr, docsExpr, docsExpr_inspectTags type, docsStmt_inspectTags body]
  | .structType fields _ => by
    simp [inspectTagsExpr, docsExpr, docsOptFieldList_inspectTags true fields]
  | .funcType typeParams params results => by
    simp [inspectTagsExpr, docsExpr, docsOptFieldList_inspectTags false typeParams,
      docsOptFieldList_inspectTags false params, docsOptFieldList_inspectTags false results]
  | .interfaceType methods _ => by
    simp [inspectTagsExpr, docsExpr, docsOptFieldList_inspectTags false methods]
theorem docsExprs_inspectTags : ∀ es : List Expr,
    docsExprs (inspectTagsExprs es) = docsExprs es
  | [] => by simp [inspectTagsExprs, docsExprs]
  | e :: es => by
    simp [inspectTagsExprs, docsExprs, docsExpr_inspectTags e, docsExprs_inspectTags es]
theorem docsOptExpr_inspectTags : ∀ e : Option Expr,
    docsOptExpr (inspectTagsOptExpr e) = docsOptExpr e
  | none => by simp [inspectTagsOptExpr, docsOptExpr]
  | some e => by simp [inspectTagsOptExpr, docsOptExpr, docsExpr_inspectTags e]
theorem docsField_inspectTags : ∀ (b : Bool) (f : Field),
    docsField (inspectTagsField b f) = docsField f
  | b, .mk _ _ type tag _ => by
    simp [inspectTagsField, docsField, docsOptExpr_inspectTags type]
theorem docsFields_inspectTags : ∀ (b : Bool) (fs : List Field),
    docsFields (inspectTagsFields b fs) = docsFields fs
  | _, [] => by simp [inspectTagsFields, docsFields]
  | b, f :: fs => by
    simp [inspectTagsFields, docsFields, docsField_inspectTags b f,
      docsFields_inspectTags b fs]
theorem docsFieldList_inspectTags : ∀ (b : Bool) (l : FieldList),
    docsFieldList (inspectTagsFieldList b l) = docsFieldList l
  | b, .mk list => by
    simp [inspectTagsFieldList, docsFieldList, docsFields_inspectTags b list]
theorem docsOptFieldList_inspectTags : ∀ (b : Bool) (l : Option FieldList),
    docsOptFieldList (inspectTagsOptFieldList b l) = docsOptFieldList l
  | _, none => by simp [inspectTagsOptFieldList, docsOptFieldList]
  | b, some l => by
    simp [inspectTagsOptFieldList, docsOptFieldList, docsFieldList_inspectTags b l]
theorem docsStmt_inspectTags : ∀ s : Stmt,
    docsStmt (inspectTagsStmt s) = docsStmt s
  | .declStmt decl => by simp [inspectTagsStmt, docsStmt, docsDecl_inspectTags decl]
  | .node _ _ exprs stmts => by
    simp [inspectTagsStmt, docsStmt, docsExprs_inspectTags exprs, docsStmts_inspectTags stmts]
theorem docsStmts_inspectTags : ∀ ss : List Stmt,
    docsStmts (inspectTagsStmts ss) = docsStmts ss
  | [] => by simp [inspectTagsStmts, docsStmts]
  | s :: ss => by
    simp [inspectTagsStmts, docsStmts, docsStmt_inspectTags s, docsStmts_inspectTags ss]
theorem docsOptStmt_inspectTags : ∀ s : Option Stmt,
    docsOptStmt (inspectTagsOptStmt s) = docsOptStmt s
  | none => by simp [inspectTagsOptStmt, docsOptStmt]
  | some s => by simp [inspectTagsOptStmt, docsOptStmt, docsStmt_inspectTags s]
theorem docsSpec_inspectTags : ∀ s : Spec,
    docsSpec (inspectTagsSpec s) = docsSpec s
  | .importSpec _ _ _ _ => by simp [inspectTagsSpec, docsSpec]
  | .valueSpec _ _ type values _ => by
    simp [inspectTagsSpec, docsSpec, docsOptExpr_inspectTags type,
      docsExprs_inspectTags values]
  | .typeSpec _ _ typeParams type _ => by
    simp [inspectTagsSpec, docsSpec, docsOptFieldList_inspectTags false typeParams,
      docsExpr_inspectTags type]
theorem docsSpecs_inspectTags : ∀ ss : List Spec,
    docsSpecs (inspectTagsSpecs ss) = docsSpecs ss
  | [] => by simp [inspectTagsSpecs, docsSpecs]
  | s :: ss => by
    simp [inspectTagsSpecs, docsSpecs, docsSpec_inspectTags s, docsSpecs_inspectTags ss]
theorem docsDecl_inspectTags : ∀ d : Decl,
    docsDecl (inspectTagsDecl d) = docsDecl d
  | .badDecl => by simp [inspectTagsDecl, docsDecl]
  | .genDecl _ _ specs => by simp [inspectTagsDecl, docsDecl, docsSpecs_inspectTags specs]
  | .funcDecl _ recv _ type body => by
    simp [inspectTagsDecl, docsDecl, docsOptFieldList_inspectTags false recv,
      docsExpr_inspectTags type, docsOptStmt_inspectTags body]
end

theorem docsDecls_inspectTags (ds : List Decl) :
    docsDecls (inspectTagsDecls ds) = docsDecls ds := by
  induction ds with
  | nil => simp [inspectTagsDecls, docsDecls]
  | cons d ds ih => simp [inspectTagsDecls, docsDecls, docsDecl_inspectTags d, ih]

/-! ## The two walks commute -/

mutual
theorem inspectExpr_comm : ∀ e : Expr,
    inspectTagsExpr (inspectCommentsExpr e) = inspectCommentsExpr (inspectTagsExpr e)
  | .leaf _ _ => by simp [inspectTagsExpr, inspectCommentsExpr]
  | .node _ _ exprs => by simp [inspectTagsExpr, inspectCommentsExpr, inspectExprs_comm exprs]
  | .funcLit type body => by
    simp [inspectTagsExpr, inspectCommentsExpr, inspectExpr_comm type, inspectStmt_comm body]
  | .structType fields _ => by
    simp [inspectTagsExpr, inspectCommentsExpr, inspectOptFieldList_comm true fields]
  | .funcType typeParams params results => by
    simp [inspectTagsExpr, inspectCommentsExpr, inspectOptFieldList_comm false typeParams,
      inspectOptFieldList_comm false params, inspectOptFieldList_comm false results]
  | .interfaceType methods _ => by
    simp [inspectTagsExpr, inspectCommentsExpr, inspectOptFieldList_comm false methods]
theorem inspectExprs_comm : ∀ es : List Expr,
    inspectTagsExprs (inspectCommentsExprs es) = inspectCommentsExprs (inspectTagsExprs es)
  | [] => by simp [inspectTagsExprs, inspectCommentsExprs]
  | e :: es => by
    simp [inspectTagsExprs, inspectCommentsExprs, inspectExpr_comm e, inspectExprs_comm es]
theorem inspectOptExpr_comm : ∀ e : Option Expr,
    inspectTagsOptExpr (inspectCommentsOptExpr e) = inspectCommentsOptExpr (inspectTagsOptExpr e)
  | none => by simp [inspectTagsOptExpr, inspectCommentsOptExpr]
  | some e => by simp [inspectTagsOptExpr, inspectCommentsOptExpr, inspectExpr_comm e]
theorem inspectField_comm : ∀ (b : Bool) (f : Field),
    inspectTagsField b (inspectCommentsField f) = inspectCommentsField (inspectTagsField b f)
  | b, .mk _ _ type tag _ => by
    simp [inspectTagsField, inspectCommentsField, inspectOptExpr_comm type]
theorem inspectFields_comm : ∀ (b : Bool) (fs : List Field),
    inspectTagsFields b (inspectCommentsFields fs) = inspectCommentsFields (inspectTagsFields b fs)
  | _, [] => by simp [inspectTagsFields, inspectCommentsFields]
  | b, f :: fs => by
    simp [inspectTagsFields, inspectCommentsFields, inspectField_comm b f,
      inspectFields_comm b fs]
theorem inspectFieldList_comm : ∀ (b : Bool) (l : FieldList),
    inspectTagsFieldList b (inspectCommentsFieldList l) = inspectCommentsFieldList (inspectTagsFieldList b l)
  | b, .mk list => by
    simp [inspectTagsFieldList, inspectCommentsFieldList, inspectFields_comm b list]
theorem inspectOptFieldList_comm : ∀ (b : Bool) (l : Option FieldList),
    inspectTagsOptFieldList b (inspectCommentsOptFieldList l) = inspectCommentsOptFieldList (inspectTagsOptFieldList b l)
  | _, none => by simp [inspectTagsOptFieldList, inspectCommentsOptFieldList]
  | b, some l => by
    simp [inspectTagsOptFieldList, inspectCommentsOptFieldList, inspectFieldList_comm b l]
theorem inspectStmt_comm : ∀ s : Stmt,
    inspectTagsStmt (inspectCommentsStmt s) = inspectCommentsStmt (inspectTagsStmt s)
  | .declStmt decl => by simp [inspectTagsStmt, inspectCommentsStmt, inspectDecl_comm decl]
  | .node _ _ exprs stmts => by
    simp [inspectTagsStmt, inspectCommentsStmt, inspectExprs_comm exprs, inspectStmts_comm stmts]
theorem inspectStmts_comm : ∀ ss : List Stmt,
    inspectTagsStmts (inspectCommentsStmts ss) = inspectCommentsStmts (inspectTagsStmts ss)
  | [] => by simp [inspectTagsStmts, inspectCommentsStmts]
  | s :: ss => by
    simp [inspectTagsStmts, inspectCommentsStmts, inspectStmt_comm s, inspectStmts_comm ss]
theorem inspectOptStmt_comm : ∀ s : Option Stmt,
    inspectTagsOptStmt (inspectCommentsOptStmt s) = inspectCommentsOptStmt (inspectTagsOptStmt s)
  | none => by simp [inspectTagsOptStmt, inspectCommentsOptStmt]
  | some s => by simp [inspectTagsOptStmt, inspectCommentsOptStmt, inspectStmt_comm s]
theorem inspectSpec_comm : ∀ s : Spec,
    inspectTagsSpec (inspectCommentsSpec s) = inspectCommentsSpec (inspectTagsSpec s)
  | .importSpec _ _ _ _ => by simp [inspectTagsSpec, inspectCommentsSpec]
  | .valueSpec _ _ type values _ => by
    simp [inspectTagsSpec, inspectCommentsSpec, inspectOptExpr_comm type,
      inspectExprs_comm values]
  | .typeSpec _ _ typeParams type _ => by
    simp [inspectTagsSpec, inspectCommentsSpec, inspectOptFieldList_comm false typeParams,
      inspectExpr_comm type]
theorem inspectSpecs_comm : ∀ ss : List Spec,
    inspectTagsSpecs (inspectCommentsSpecs ss) = inspectCommentsSpecs (inspectTagsSpecs ss)
  | [] => by simp [inspectTagsSpecs, inspectCommentsSpecs]
  | s :: ss => by
    simp [inspectTagsSpecs, inspectCommentsSpecs, inspectSpec_comm s, inspectSpecs_comm ss]
theorem inspectDecl_comm : ∀ d : Decl,
    inspectTagsDecl (inspectCommentsDecl d) = inspectCommentsDecl (inspectTagsDecl d)
  | .badDecl => by simp [inspectTagsDecl, inspectCommentsDecl]
  | .genDecl _ _ specs => by simp [inspectTagsDecl, inspectCommentsDecl, inspectSpecs_comm specs]
  | .funcDecl _ recv _ type body => by
    simp [inspectTagsDecl, inspectCommentsDecl, inspectOptFieldList_comm false recv,
      inspectExpr_comm type, inspectOptStmt_comm body]
end

theorem inspectDecls_comm (ds : List Decl) :
    inspectTagsDecls (inspectCommentsDecls ds) = inspectCommentsDecls (inspectTagsDecls ds) := by
  induction ds with
  | nil => simp [inspectTagsDecls, inspectCommentsDecls]
  | cons d ds ih => simp [inspectTagsDecls, inspectCommentsDecls, inspectDecl_comm d, ih]

/-! ## A walk that finds nothing to change returns the tree it was given -/

theorem tagAfter_fixed (b : Bool) (tag : Option BasicLit) (h : tagAfter (b, tag) = (b, tag)) :
    (if b then processTagOf tag else tag) = tag := by
  rw [tagAfter_mk, Prod.mk.injEq] at h
  exact h.2

theorem docAfter_fixed (k : DocKind) (doc : Option CommentGroup) (hk : k ∈ fiveKinds)
    (h : docAfter (k, doc) = (k, doc)) : clearMarkedDoc doc = doc := by
  rw [docAfter_five k doc hk, Prod.mk.injEq] at h
  exact h.2

mutual
theorem inspectTagsExpr_fixed : ∀ e : Expr,
    (∀ n ∈ tagsExpr e, tagAfter n = n) → inspectTagsExpr e = e
  | .leaf _ _ => fun _ => by simp [inspectTagsExpr]
  | .node _ _ exprs => fun h => by
    simp only [tagsExpr] at h
    simp [inspectTagsExpr, inspectTagsExprs_fixed exprs h]
  | .funcLit type body => fun h => by
    simp only [tagsExpr, List.forall_mem_append] at h
    simp [inspectTagsExpr, inspectTagsExpr_fixed type h.1, inspectTagsStmt_fixed body h.2]
  | .structType fields _ => fun h => by
    simp only [tagsExpr] at h
    simp [inspectTagsExpr, inspectTagsOptFieldList_fixed true fields h]
  | .funcType typeParams params results => fun h => by
    simp only [tagsExpr, List.forall_mem_append] at h
    simp [inspectTagsExpr, inspectTagsOptFieldList_fixed false typeParams h.1.1,
      inspectTagsOptFieldList_fixed false params h.1.2,
      inspectTagsOptFieldList_fixed false results h.2]
  | .interfaceType methods _ => fun h => by
    simp only [tagsExpr] at h
    simp [inspectTagsExpr, inspectTagsOptFieldList_fixed false methods h]
theorem inspectTagsExprs_fixed : ∀ es : List Expr,
    (∀ n ∈ tagsExprs es, tagAfter n = n) → inspectTagsExprs es = es
  | [] => fun _ => by simp [inspectTagsExprs]
  | e :: es => fun h => by
    simp only [tagsExprs, List.forall_mem_append] at h
    simp [inspectTagsExprs, inspectTagsExpr_fixed e h.1, inspectTagsExprs_fixed es h.2]
theorem inspectTagsOptExpr_fixed : ∀ e : Option Expr,
    (∀ n ∈ tagsOptExpr e, tagAfter n = n) → inspectTagsOptExpr e = e
  | none => fun _ => by simp [inspectTagsOptExpr]
  | some e => fun h => by
    simp only [tagsOptExpr] at h
    simp [inspectTagsOptExpr, inspectTagsExpr_fixed e h]
theorem inspectTagsField_fixed : ∀ (b : Bool) (f : Field),
    (∀ n ∈ tagsField b f, tagAfter n = n) → inspectTagsField b f = f
  | b, .mk _ _ type tag _ => fun h => by
    simp only [tagsField, List.forall_mem_cons] at h
    simp [inspectTagsField, inspectTagsOptExpr_fixed type h.2, tagAfter_fixed b tag h.1]
theorem inspectTagsFields_fixed : ∀ (b : Bool) (fs : List Field),
    (∀ n ∈ tagsFields b fs, tagAfter n = n) → inspectTagsFields b fs = fs
  | _, [] => fun _ => by simp [inspectTagsFields]
  | b, f :: fs => fun h => by
    simp only [tagsFields, List.forall_mem_append] at h
    simp [inspectTagsFields, inspectTagsField_fixed b f h.1, inspectTagsFields_fixed b fs h.2]
theorem inspectTagsFieldList_fixed : ∀ (b : Bool) (l : FieldList),
    (∀ n ∈ tagsFieldList b l, tagAfter n = n) → inspectTagsFieldList b l = l
  | b, .mk list => fun h => by
    simp only [tagsFieldList] at h
    simp [inspectTagsFieldList, inspectTagsFields_fixed b list h]
theorem inspectTagsOptFieldList_fixed : ∀ (b : Bool) (l : Option FieldList),
    (∀ n ∈ tagsOptFieldList b l, tagAfter n = n) → inspectTagsOptFieldList b l = l
  | _, none => fun _ => by simp [inspectTagsOptFieldList]
  | b, some l => fun h => by
    simp only [tagsOptFieldList] at h
    simp [inspectTagsOptFieldList, inspectTagsFieldList_fixed b l h]
theorem inspectTagsStmt_fixed : ∀ s : Stmt,
    (∀ n ∈ tagsStmt s, tagAfter n = n) → inspectTagsStmt s = s
  | .declStmt decl => fun h => by
    simp only [tagsStmt] at h
    simp [inspectTagsStmt, inspectTagsDecl_fixed decl h]
  | .node _ _ exprs stmts => fun h => by
    simp only [tagsStmt, List.forall_mem_append] at h
    simp [inspectTagsStmt, inspectTagsExprs_fixed exprs h.1, inspectTagsStmts_fixed stmts h.2]
theorem inspectTagsStmts_fixed : ∀ ss : List Stmt,
    (∀ n ∈ tagsStmts ss, tagAfter n = n) → inspectTagsStmts ss = ss
  | [] => fun _ => by simp [inspectTagsStmts]
  | s :: ss => fun h => by
    simp only [tagsStmts, List.forall_mem_append] at h
    simp [inspectTagsStmts, inspectTagsStmt_fixed s h.1, inspectTagsStmts_fixed ss h.2]
theorem inspectTagsOptStmt_fixed : ∀ s : Option Stmt,
    (∀ n ∈ tagsOptStmt s, tagAfter n = n) → inspectTagsOptStmt s = s
  | none => fun _ => by simp [inspectTagsOptStmt]
  | some s => fun h => by
    simp only [tagsOptStmt] at h
    simp [inspectTagsOptStmt, inspectTagsStmt_fixed s h]
theorem inspectTagsSpec_fixed : ∀ s : Spec,
    (∀ n ∈ tagsSpec s, tagAfter n = n) → inspectTagsSpec s = s
  | .importSpec _ _ _ _ => fun _ => by simp [inspectTagsSpec]
  | .valueSpec _ _ type values _ => fun h => by
    simp only [tagsSpec, List.forall_mem_append] at h
    simp [inspectTagsSpec, inspectTagsOptExpr_fixed type h.1, inspectTagsExprs_fixed values h.2]
  | .typeSpec _ _ typeParams type _ => fun h => by
    simp only [tagsSpec, List.forall_mem_append] at h
    simp [inspectTagsSpec, inspectTagsOptFieldList_fixed false typeParams h.1,
      inspectTagsExpr_fixed type h.2]
theorem inspectTagsSpecs_fixed : ∀ ss : List Spec,
    (∀ n ∈ tagsSpecs ss, tagAfter n = n) → inspectTagsSpecs ss = ss
  | [] => fun _ => by simp [inspectTagsSpecs]
  | s :: ss => fun h => by
    simp only [tagsSpecs, List.forall_mem_append] at h
    simp [inspectTagsSpecs, inspectTagsSpec_fixed s h.1, inspectTagsSpecs_fixed ss h.2]
theorem inspectTagsDecl_fixed : ∀ d : Decl,
    (∀ n ∈ tagsDecl d, tagAfter n = n) → inspectTagsDecl d = d
  | .badDecl => fun _ => by simp [inspectTagsDecl]
  | .genDecl _ _ specs => fun h => by
    simp only [tagsDecl] at h
    simp [inspectTagsDecl, inspectTagsSpecs_fixed specs h]
  | .funcDecl _ recv _ type body => fun h => by
    simp only [tagsDecl, List.forall_mem_append] at h
    simp [inspectTagsDecl, inspectTagsOptFieldList_fixed false recv h.1.1,
      inspectTagsExpr_fixed type h.1.2, inspectTagsOptStmt_fixed body h.2]
end

theorem inspectTagsDecls_fixed (ds : List Decl) (h : ∀ n ∈ tagsDecls ds, tagAfter n = n) :
    inspectTagsDecls ds = ds := by
  induction ds with
  | nil => simp [inspectTagsDecls]
  | cons d ds ih =>
    simp only [tagsDecls, List.forall_mem_append] at h
    simp [inspectTagsDecls, inspectTagsDecl_fixed d h.1, ih h.2]

mutual
theorem inspectCommentsExpr_fixed : ∀ e : Expr,
    (∀ n ∈ docsExpr e, docAfter n = n) → inspectCommentsExpr e = e
  | .leaf _ _ => fun _ => by simp [inspectCommentsExpr]
  | .node _ _ exprs => fun h => by
    simp only [docsExpr] at h
    simp [inspectCommentsExpr, inspectCommentsExprs_fixed exprs h]
  | .funcLit type body => fun h => by
    simp only [docsExpr, List.forall_mem_append] at h
    simp [inspectCommentsExpr, inspectCommentsExpr_fixed type h.1, inspectCommentsStmt_fixed body h.2]
  | .structType fields _ => fun h => by
    simp only [docsExpr] at h
    simp [inspectCommentsExpr, inspectCommentsOptFieldList_fixed fields h]
  | .funcType typeParams params results => fun h => by
    simp only [docsExpr, List.forall_mem_append] at h
    simp [inspectCommentsExpr, inspectCommentsOptFieldList_fixed typeParams h.1.1,
      inspectCommentsOptFieldList_fixed params h.1.2,
      inspectCommentsOptFieldList_fixed results h.2]
  | .interfaceType methods _ => fun h => by
    simp only [docsExpr] at h
    simp [inspectCommentsExpr, inspectCommentsOptFieldList_fixed methods h]
theorem inspectCommentsExprs_fixed : ∀ es : List Expr,
    (∀ n ∈ docsExprs es, docAfter n = n) → inspectCommentsExprs es = es
  | [] => fun _ => by simp [inspectCommentsExprs]
  | e :: es => fun h => by
    simp only [docsExprs, List.forall_mem_append] at h
    simp [inspectCommentsExprs, inspectCommentsExpr_fixed e h.1, inspectCommentsExprs_fixed es h.2]
theorem inspectCommentsOptExpr_fixed : ∀ e : Option Expr,
    (∀ n ∈ docsOptExpr e, docAfter n = n) → inspectCommentsOptExpr e = e
  | none => fun _ => by simp [inspectCommentsOptExpr]
  | some e => fun h => by
    simp only [docsOptExpr] at h
    simp [inspectCommentsOptExpr, inspectCommentsExpr_fixed e h]
theorem inspectCommentsField_fixed : ∀ f : Field,
    (∀ n ∈ docsField f, docAfter n = n) → inspectCommentsField f = f
  | .mk doc _ type _ _ => fun h => by
    simp only [docsField, List.forall_mem_cons] at h
    simp [inspectCommentsField, inspectCommentsOptExpr_fixed type h.2,
      docAfter_fixed DocKind.field doc (by decide) h.1]
theorem inspectCommentsFields_fixed : ∀ fs : List Field,
    (∀ n ∈ docsFields fs, docAfter n = n) → inspectCommentsFields fs = fs
  | [] => fun _ => by simp [inspectCommentsFields]
  | f :: fs => fun h => by
    simp only [docsFields, List.forall_mem_append] at h
    simp [inspectCommentsFields, inspectCommentsField_fixed f h.1, inspectCommentsFields_fixed fs h.2]
theorem inspectCommentsFieldList_fixed : ∀ l : FieldList,
    (∀ n ∈ docsFieldList l, docAfter n = n) → inspectCommentsFieldList l = l
  | .mk list => fun h => by
    simp only [docsFieldList] at h
    simp [inspectCommentsFieldList, inspectCommentsFields_fixed list h]
theorem inspectCommentsOptFieldList_fixed : ∀ l : Option FieldList,
    (∀ n ∈ docsOptFieldList l, docAfter n = n) → inspectCommentsOptFieldList l = l
  | none => fun _ => by simp [inspectCommentsOptFieldList]
  | some l => fun h => by
    simp only [docsOptFieldList] at h
    simp [inspectCommentsOptFieldList, inspectCommentsFieldList_fixed l h]
theorem inspectCommentsStmt_fixed : ∀ s : Stmt,
    (∀ n ∈ docsStmt s, docAfter n = n) → inspectCommentsStmt s = s
  | .declStmt decl => fun h => by
    simp only [docsStmt] at h
    simp [inspectCommentsStmt, inspectCommentsDecl_fixed decl h]
  | .node _ _ exprs stmts => fun h => by
    simp only [docsStmt, List.forall_mem_append] at h
    simp [inspectCommentsStmt, inspectCommentsExprs_fixed exprs h.1, inspectCommentsStmts_fixed stmts h.2]
theorem inspectCommentsStmts_fixed : ∀ ss : List Stmt,
    (∀ n ∈ docsStmts ss, docAfter n = n) → inspectCommentsStmts ss = ss
  | [] => fun _ => by simp [inspectCommentsStmts]
  | s :: ss => fun h => by
    simp only [docsStmts, List.forall_mem_append] at h
    simp [inspectCommentsStmts, inspectCommentsStmt_fixed s h.1, inspectCommentsStmts_fixed ss h.2]
theorem inspectCommentsOptStmt_fixed : ∀ s : Option Stmt,
    (∀ n ∈ docsOptStmt s, docAfter n = n) → inspectCommentsOptStmt s = s
  | none => fun _ => by simp [inspectCommentsOptStmt]
  | some s => fun h => by
    simp only [docsOptStmt] at h
    simp [inspectCommentsOptStmt, inspectCommentsStmt_fixed s h]
theorem inspectCommentsSpec_fixed : ∀ s : Spec,
    (∀ n ∈ docsSpec s, docAfter n = n) → inspectCommentsSpec s = s
  | .importSpec _ _ _ _ => fun _ => by simp [inspectCommentsSpec]
  | .valueSpec doc _ type values _ => fun h => by
    simp only [docsSpec, List.forall_mem_append, List.forall_mem_cons] at h
    simp [inspectCommentsSpec, inspectCommentsOptExpr_fixed type h.2.1,
      inspectCommentsExprs_fixed values h.2.2,
      docAfter_fixed DocKind.valueSpec doc (by decide) h.1]
  | .typeSpec doc _ typeParams type _ => fun h => by
    simp only [docsSpec, List.forall_mem_append, List.forall_mem_cons] at h
    simp [inspectCommentsSpec, inspectCommentsOptFieldList_fixed typeParams h.2.1,
      inspectCommentsExpr_fixed type h.2.2,
      docAfter_fixed DocKind.typeSpec doc (by decide) h.1]
theorem inspectCommentsSpecs_fixed : ∀ ss : List Spec,
    (∀ n ∈ docsSpecs ss, docAfter n = n) → inspectCommentsSpecs ss = ss
  | [] => fun _ => by simp [inspectCommentsSpecs]
  | s :: ss => fun h => by
    simp only [docsSpecs, List.forall_mem_append] at h
    simp [inspectCommentsSpecs, inspectCommentsSpec_fixed s h.1, inspectCommentsSpecs_fixed ss h.2]
theorem inspectCommentsDecl_fixed : ∀ d : Decl,
    (∀ n ∈ docsDecl d, docAfter n = n) → inspectCommentsDecl d = d
  | .badDecl => fun _ => by simp [inspectCommentsDecl]
  | .genDecl doc _ specs => fun h => by
    simp only [docsDecl, List.forall_mem_cons] at h
    simp [inspectCommentsDecl, inspectCommentsSpecs_fixed specs h.2,
      docAfter_fixed DocKind.genDecl doc (by decide) h.1]
  | .funcDecl doc recv _ type body => fun h => by
    simp only [docsDecl, List.forall_mem_append, List.forall_mem_cons] at h
    simp [inspectCommentsDecl, inspectCommentsOptFieldList_fixed recv h.2.1.1,
      inspectCommentsExpr_fixed type h.2.1.2, inspectCommentsOptStmt_fixed body h.2.2,
      docAfter_fixed DocKind.funcDecl doc (by decide) h.1]
end

theorem inspectCommentsDecls_fixed (ds : List Decl) (h : ∀ n ∈ docsDecls ds, docAfter n = n) :
    inspectCommentsDecls ds = ds := by
  induction ds with
  | nil => simp [inspectCommentsDecls]
  | cons d ds ih =>
    simp only [docsDecls, List.forall_mem_append] at h
    simp [inspectCommentsDecls, inspectCommentsDecl_fixed d h.1, ih h.2]

/-! ## File-level facts about the two passes -/

theorem fieldTags_processStructTags (file : File) :
    fieldTags (processStructTags file) = (fieldTags file).map tagAfter :=
  tagsDecls_inspectTags file.decls

theorem fieldTags_processComments (file : File) :
    fieldTags (processComments file) = fieldTags file :=
  tagsDecls_inspectComments file.decls

theorem docNodes_processStructTags (file : File) :
    docNodes (processStructTags file) = docNodes file := by
  simp [docNodes, processStructTags, docsDecls_inspectTags]

theorem passes_commute (file : File) :
    processComments (processStructTags file) = processStructTags (processComments file) := by
  simp [processComments, processStructTags, inspectDecls_comm]

/-- At a struct type the walk of `processStructTags` does what the source
says: the callback runs its loop over the fields, and the walk then goes on
into the fields the loop has left. -/
theorem inspectTagsFields_struct (fields : List Field) :
    inspectTagsFields true fields
      = inspectTagsFields false (fields.map processFieldTagIfPresent) := by
  induction fields with
  | nil => simp [inspectTagsFields]
  | cons f fs ih =>
    cases f with
    | mk doc names type tag comment =>
      simp [inspectTagsFields, inspectTagsField, processFieldTagIfPresent, ih]

/-! ## The passes over the tree: claims C13, C14, C18 and C19 -/

/-- C13: after `processStructTags` the fields of the tree are where they were,
every field of a struct type that had a tag has the tag `processFieldTag` makes
of it, every field without a tag still has none, and the tag of a field that is
not a struct field is untouched, at any depth; at a struct type the walk is the
loop of the callback over its fields followed by the walk into them. The file
`nestedFile` has struct types in a type declaration, in a struct field and in
a function body. -/
theorem processStructTags_field_tags (file : File) :
    (fieldTags (processStructTags file)).length = (fieldTags file).length
    ∧ (∀ (i : Nat) (tag : BasicLit), (fieldTags file)[i]? = some (true, some tag) →
        (fieldTags (processStructTags file))[i]? = some (true, processFieldTag tag))
    ∧ (∀ (i : Nat) ( inStruct : Bool), (fieldTags file)[i]? = some (inStruct, none) →
        (fieldTags (processStructTags file))[i]? = some (inStruct, none))
    ∧ (∀ (i : Nat) (tag : Option BasicLit), (fieldTags file)[i]? = some (false, tag) →
        (fieldTags (processStructTags file))[i]? = some (false, tag))
    ∧ (∀ (fields : List Field) (incomplete : Bool),
        inspectTagsExpr (Expr.structType (some (FieldList.mk fields)) incomplete)
          = Expr.structType (some (FieldList.mk
              (inspectTagsFields false (fields.map processFieldTagIfPresent)))) incomplete)
    ∧ fieldTags nestedFile =
        [(true, some ⟨0, 9, "\x60json:\"a\" x:\"1\"\x60".toList⟩),
         (true, some ⟨0, 9, "\x60y:\"2\"\x60".toList⟩),
         (true, some ⟨0, 9, "\x60json:\"b\"\x60".toList⟩), (false, none),
         (true, some ⟨0, 9, "\x60json:\"c\" z:\"3\"\x60".toList⟩)]
    ∧ fieldTags (processStructTags nestedFile) =
        [(true, some ⟨0, 9, "\x60x:\"1\"\x60".toList⟩),
         (true, some ⟨0, 9, "\x60y:\"2\"\x60".toList⟩),
         (true, none), (false, none), (true, some ⟨0, 9, "\x60z:\"3\"\x60".toList⟩)] := by
  rw [fieldTags_processStructTags]
  refine ⟨by simp, ?_, ?_, ?_, ?_, by decide, by decide⟩
  · intro i tag h
    rw [List.getElem?_map, h]
    rfl
  · intro i b h
    rw [List.getElem?_map, h]
    cases b <;> rfl
  · intro i tag h
    rw [List.getElem?_map, h]
    rfl
  · intro fields incomplete
    simp [inspectTagsExpr, inspectTagsOptFieldList, inspectTagsFieldList,
      inspectTagsFields_struct]

/-- C14: a struct field whose documentation block has the one line
`+kubebuilder:validation:Required` (after any comment opener) and whose tag is
`json:"name" yaml:"name"` between back quotes has, after `processComments` and
`processStructTags`, no documentation block and the tag `yaml:"name"` between
back quotes; so has the field of the file `requiredFieldFile`. -/
theorem required_field_example (slash valuePos : Nat) (opener : List Char)
    (names : List (List Char)) (type : Option Expr) (comment : Option CommentGroup) :
    inspectTagsField true (inspectCommentsField
        (Field.mk (some ⟨[⟨slash, opener ++ "+kubebuilder:validation:Required".toList⟩]⟩)
          names type (some ⟨valuePos, 9, "\x60json:\"name\" yaml:\"name\"\x60".toList⟩) comment))
      = Field.mk none names (inspectTagsOptExpr (inspectCommentsOptExpr type))
          (some ⟨valuePos, 9, "\x60yaml:\"name\"\x60".toList⟩) comment
    ∧ docNodes requiredFieldFile
        = [(DocKind.file, none), (DocKind.genDecl, none), (DocKind.typeSpec, none),
           (DocKind.field, some requiredGroup)]
    ∧ docNodes (mutate requiredFieldFile)
        = [(DocKind.file, none), (DocKind.genDecl, none), (DocKind.typeSpec, none),
           (DocKind.field, none)]
    ∧ fieldTags (mutate requiredFieldFile)
        = [(true, some ⟨0, 9, "\x60yaml:\"name\"\x60".toList⟩)]
    ∧ (mutate requiredFieldFile).comments = [] := by
  refine ⟨?_, by decide, by decide, by decide, by decide⟩
  have hdoc : clearMarkedDoc
      (some ⟨[⟨slash, opener ++ "+kubebuilder:validation:Required".toList⟩]⟩) = none := by
    have hc : Contains (opener ++ "+kubebuilder:validation:Required".toList) kubebuilder
        = true := by
      rw [contains_iff]
      exact ⟨opener ++ "+".toList, ":validation:Required".toList, by simp [kubebuilder]⟩
    have hm : containsKubebuilder
        (some ⟨[⟨slash, opener ++ "+kubebuilder:validation:Required".toList⟩]⟩) = true := by
      simp only [containsKubebuilder, List.any_cons, List.any_nil, hc, Bool.or_false]
    simp only [clearMarkedDoc, hm, Option.isSome_some, Bool.and_self, if_true]
  have hparts : newPartsOf (Fields (Trim "\x60json:\"name\" yaml:\"name\"\x60".toList [backtick]))
      = ["yaml:\"name\"".toList] := by decide
  have htag : processFieldTag ⟨valuePos, 9, "\x60json:\"name\" yaml:\"name\"\x60".toList⟩
      = some ⟨valuePos, 9, "\x60yaml:\"name\"\x60".toList⟩ := by
    have hv : backtick :: (Join ["yaml:\"name\"".toList] [' '] ++ [backtick])
        = "\x60yaml:\"name\"\x60".toList := by decide
    rw [processFieldTag_eq]
    simp only [hparts]
    rw [if_neg (by decide), hv]
  simp only [inspectCommentsField, inspectTagsField, hdoc, if_true, processTagOf, htag]

/-- C18: if every `Doc` of a `GenDecl`, `FuncDecl`, `TypeSpec`, `Field` or
`ValueSpec` node is an element of `file.Comments` before `processComments`,
then every `Doc` such a node still has afterwards is an element of the new
`file.Comments`. -/
theorem processComments_docs_in_comments (file : File)
    (h : ∀ n ∈ docNodes file, n.1 ∈ fiveKinds → n.2 ≠ none → n.2 ∈ file.comments) :
    ∀ n ∈ docNodes (processComments file), n.1 ∈ fiveKinds → n.2 ≠ none →
      n.2 ∈ (processComments file).comments := by
  intro n hn hk hne
  rw [docNodes_processComments, List.mem_map] at hn
  obtain ⟨⟨k0, d0⟩, hm, he⟩ := hn
  have hcs : (processComments file).comments
      = file.comments.filter (fun cg => !containsKubebuilder cg) :=
    newCommentsOf_eq_filter file.comments
  by_cases h5 : k0 ∈ fiveKinds
  · rw [docAfter_five k0 d0 h5] at he
    subst he
    simp only at hne ⊢
    rw [clearMarkedDoc_eq] at hne ⊢
    by_cases hc : containsKubebuilder d0 = true
    · rw [if_pos hc] at hne
      exact absurd rfl hne
    · rw [if_neg hc] at hne ⊢
      rw [hcs, List.mem_filter]
      exact ⟨h (k0, d0) hm h5 hne, by simpa using hc⟩
  · have hk0 : docAfter (k0, d0) = (k0, d0) := by simp [docAfter, h5]
    rw [hk0] at he
    subst he
    exact absurd hk h5

/-- C19: `processComments` leaves every field tag as it was, `processStructTags`
leaves the file-level comment sequence, the `Doc` of the file and the `Doc` of
every node as they were, and the two passes give the same tree in either
order. -/
theorem passes_disjoint_and_commute (file : File) :
    fieldTags (processComments file) = fieldTags file
    ∧ (processStructTags file).comments = file.comments
    ∧ docNodes (processStructTags file) = docNodes file
    ∧ processComments (processStructTags file) = processStructTags (processComments file) :=
  ⟨fieldTags_processComments file, rfl, docNodes_processStructTags file, passes_commute file⟩

/-! ## The file pipeline: claim C15 -/

/-- C15: `processFile` leaves the file system as it found it when parsing
fails and when serializing the mutated tree fails, logging the failure; when
both succeed it leaves the state `os.WriteFile` produces from writing, to the
same path, the bytes the print service returned for the tree after
`processComments` and `processStructTags`. -/
theorem processFile_writes_only_on_success {Disk : Type} (sv : Services Disk) (disk : Disk)
    (filePath : List Char) :
    (∀ err, sv.parseFile disk filePath = Except.error err →
      processFile sv disk filePath = (disk, [LogLine.parseFailed filePath err]))
    ∧ (∀ file err, sv.parseFile disk filePath = Except.ok file →
        sv.formatNode (processStructTags (processComments file)) = Except.error err →
        processFile sv disk filePath = (disk, [LogLine.formatFailed filePath err]))
    ∧ (∀ file buf, sv.parseFile disk filePath = Except.ok file →
        sv.formatNode (processStructTags (processComments file)) = Except.ok buf →
        (processFile sv disk filePath).1 = (sv.writeFile disk filePath buf).1
        ∧ (processFile sv disk filePath).2
            = match (sv.writeFile disk filePath buf).2 with
              | some err => [LogLine.writeFailed filePath err]
              | none => []) := by
  refine ⟨?_, ?_, ?_⟩
  · intro err h
    simp only [processFile, h]
  · intro file err hp hf
    simp only [processFile, hp, hf]
  · intro file buf hp hf
    simp only [processFile, hp, hf]
    rcases hw : sv.writeFile disk filePath buf with ⟨disk2, e⟩
    cases e <;> simp

/-! ## Facts about white space in tags -/

theorem fieldsLoop_spaces (ws : List Char) (h : ∀ c ∈ ws, isSpace c = true) (s : List Char) :
    fieldsLoop [] (ws ++ s) = fieldsLoop [] s := by
  induction ws with
  | nil => rfl
  | cons a ws ih =>
    have ha : isSpace a = true := h a (List.mem_cons_self _ _)
    simp only [List.cons_append, fieldsLoop, ha, if_true, List.isEmpty_nil, List.append_eq]
    exact ih (fun c hc => h c (List.mem_cons_of_mem _ hc))

theorem fieldsLoop_close (cur ws : List Char) (hcur : cur ≠ []) (hws : ws ≠ [])
    (h : ∀ c ∈ ws, isSpace c = true) (s : List Char) :
    fieldsLoop cur (ws ++ s) = cur :: fieldsLoop [] s := by
  cases ws with
  | nil => exact absurd rfl hws
  | cons a ws =>
    have ha : isSpace a = true := h a (List.mem_cons_self _ _)
    have hc : cur.isEmpty = false := by
      cases cur with
      | nil => exact absurd rfl hcur
      | cons _ _ => rfl
    simp only [List.cons_append, fieldsLoop, ha, if_true, hc, Bool.false_eq_true, if_false,
      List.append_eq]
    rw [fieldsLoop_spaces ws (fun c hc => h c (List.mem_cons_of_mem _ hc))]

theorem fields_word (w : List Char) (hw : ∀ c ∈ w, isSpace c = false) :
    fieldsLoop [] w = if w = [] then [] else [w] := by
  have h := fieldsLoop_append_word w hw [] []
  simp only [List.append_nil, List.nil_append] at h
  rw [h]
  cases w with
  | nil => rfl
  | cons a w => simp [fieldsLoop]

/-- The fields of a text are its maximal runs of characters that are not
white space: lead white space, then words each followed by at least one white
space character, then a last word that may be missing. -/
theorem fields_of_runs (runs : List (List Char × List Char)) (lead last : List Char)
    (hlead : ∀ c ∈ lead, isSpace c = true)
    (hruns : ∀ r ∈ runs, (r.1 ≠ [] ∧ ∀ c ∈ r.1, isSpace c = false)
      ∧ (r.2 ≠ [] ∧ ∀ c ∈ r.2, isSpace c = true))
    (hlast : ∀ c ∈ last, isSpace c = false) :
    Fields (lead ++ (runs.map (fun r => r.1 ++ r.2)).flatten ++ last)
      = runs.map (fun r => r.1) ++ (if last = [] then [] else [last]) := by
  unfold Fields
  rw [List.append_assoc, fieldsLoop_spaces lead hlead]
  induction runs with
  | nil => simpa using fields_word last hlast
  | cons r runs ih =>
    obtain ⟨⟨h1, h2⟩, h3, h4⟩ := hruns r (List.mem_cons_self _ _)
    have e : ((r :: runs).map (fun r => r.1 ++ r.2)).flatten ++ last
        = r.1 ++ (r.2 ++ ((runs.map (fun r => r.1 ++ r.2)).flatten ++ last)) := by
      simp
    rw [e, fieldsLoop_append_word r.1 h2, List.nil_append, fieldsLoop_close r.1 r.2 h1 h3 h4,
      ih (fun q hq => hruns q (List.mem_cons_of_mem _ hq))]
    simp

theorem endsWithSpace_cons_cons (a b : Char) (rest : List Char) :
    endsWithSpace (a :: b :: rest) = endsWithSpace (b :: rest) := by
  simp [endsWithSpace, List.getLast?_cons_cons]

theorem join_fieldsLoop_normal (s : List Char) :
    ∀ cur : List Char, (cur = [] → startsWithSpace s = false) → endsWithSpace s = false →
      oneSpaceBetween s = true → Join (fieldsLoop cur s) [' '] = cur ++ s := by
  induction s with
  | nil =>
    intro cur _ _ _
    cases cur with
    | nil => simp [fieldsLoop, Join]
    | cons x xs => simp [fieldsLoop, Join]
  | cons a s ih =>
    intro cur h1 h2 h3
    by_cases ha : isSpace a = true
    · have hcur : cur ≠ [] := by
        intro hc
        have := h1 hc
        simp [startsWithSpace, ha] at this
      have hce : cur.isEmpty = false := by
        cases cur with
        | nil => exact absurd rfl hcur
        | cons _ _ => rfl
      cases s with
      | nil => simp [endsWithSpace, ha] at h2
      | cons b s =>
        simp only [oneSpaceBetween, ha, Bool.not_true, Bool.false_or, Bool.and_eq_true,
          beq_iff_eq, Bool.not_eq_true'] at h3
        obtain ⟨⟨hsp, hb⟩, hrest⟩ := h3
        have h2b : endsWithSpace (b :: s) = false := by
          rw [← endsWithSpace_cons_cons a b s]; exact h2
        have hj := ih [] (fun _ => by simp [startsWithSpace, hb]) h2b hrest
        simp only [fieldsLoop, ha, if_true, hce, Bool.false_eq_true, if_false] at hj ⊢
        cases hfl : fieldsLoop [] (b :: s) with
        | nil =>
          simp only [fieldsLoop] at hfl
          rw [hfl] at hj
          simp [Join] at hj
        | cons e es =>
          simp only [fieldsLoop] at hfl
          rw [hfl] at hj ⊢
          simp only [Join, hj, hsp]
          simp
    · have ha2 : isSpace a = false := by simpa using ha
      have h2s : endsWithSpace s = false := by
        cases s with
        | nil => rfl
        | cons b s => rw [← endsWithSpace_cons_cons a b s]; exact h2
      have h3s : oneSpaceBetween s = true := by
        cases s with
        | nil => rfl
        | cons b s =>
          simp only [oneSpaceBetween, Bool.and_eq_true] at h3
          exact h3.2
      have hj := ih (cur ++ [a]) (fun hc => by simp at hc) h2s h3s
      simp only [fieldsLoop, ha2, Bool.false_eq_true, if_false]
      rw [hj]
      simp

/-- A raw string literal in normal form is what `processFieldTag` would write:
the function leaves it as it is. -/
theorem processFieldTag_normal (tag : BasicLit) (content : List Char)
    (hv : tag.value = backtick :: (content ++ [backtick])) (hb : backtick ∉ content)
    (hn : normalContent content = true) : processFieldTag tag = some tag := by
  simp only [normalContent, Bool.and_eq_true, Bool.not_eq_true', List.isEmpty_eq_false,
    List.all_eq_true] at hn
  obtain ⟨⟨⟨⟨hne, hs⟩, he⟩, ho⟩, hj⟩ := hn
  have ht : Trim tag.value [backtick] = content := by rw [hv]; exact trim_raw content hb
  have hjoin : Join (Fields content) [' '] = content := by
    have := join_fieldsLoop_normal content [] (fun _ => hs) he ho
    simpa [Fields] using this
  have hkeep : newPartsOf (Fields content) = Fields content := by
    rw [newPartsOf_eq_filter, List.filter_eq_self]
    intro p hp
    have h1 := hj p hp
    have h2 : HasPrefix p jsonColon = false := by
      cases hh : HasPrefix p jsonColon with
      | false => rfl
      | true =>
        rw [(hasPrefix_json_iff p).1 hh] at h1
        simp at h1
    simp [h2]
  have hnonempty : Fields content ≠ [] := by
    intro h0
    rw [h0] at hjoin
    exact hne (by simpa [Join] using hjoin.symm)
  rw [processFieldTag_eq, ht, hkeep, if_neg hnonempty, hjoin, ← hv]

/-- C18 at the file `twoDocsFile`: the unmarked block stays on the type
declaration and in the file-level sequence, the marked block leaves both. -/
theorem processComments_docs_in_comments_witness :
    (∀ n ∈ docNodes twoDocsFile, n.1 ∈ fiveKinds → n.2 ≠ none → n.2 ∈ twoDocsFile.comments)
    ∧ (∀ n ∈ docNodes (processComments twoDocsFile), n.1 ∈ fiveKinds → n.2 ≠ none →
        n.2 ∈ (processComments twoDocsFile).comments)
    ∧ docNodes (processComments twoDocsFile)
        = [(DocKind.file, none), (DocKind.genDecl, some plainGroup), (DocKind.typeSpec, none),
           (DocKind.field, none)]
    ∧ (processComments twoDocsFile).comments = [some plainGroup] :=
  ⟨by decide, processComments_docs_in_comments twoDocsFile (by decide), by decide, by decide⟩

/-! ## Splitting on white space: claims C16 and C17 -/

/-- C16: the fragments are the maximal runs of characters that are not white
space, whatever the characters are: for a text made of white space, then words
each followed by white space, then a last word, `Fields` returns the words;
a fragment is kept exactly when it does not start with `json:`; so the tag
`yaml:"a json:b"` becomes `yaml:"a` and the tag `json:"a b" yaml:"c"` becomes
`b" yaml:"c"`. -/
theorem fragments_ignore_quotes (runs : List (List Char × List Char)) (lead last : List Char)
    (hlead : ∀ c ∈ lead, isSpace c = true)
    (hruns : ∀ r ∈ runs, (r.1 ≠ [] ∧ ∀ c ∈ r.1, isSpace c = false)
      ∧ (r.2 ≠ [] ∧ ∀ c ∈ r.2, isSpace c = true))
    (hlast : ∀ c ∈ last, isSpace c = false) :
    Fields (lead ++ (runs.map (fun r => r.1 ++ r.2)).flatten ++ last)
      = runs.map (fun r => r.1) ++ (if last = [] then [] else [last])
    ∧ (∀ (parts : List (List Char)) (p : List Char),
        p ∈ newPartsOf parts ↔ p ∈ parts ∧ HasPrefix p jsonColon = false)
    ∧ Fields "yaml:\"a json:b\"".toList = ["yaml:\"a".toList, "json:b\"".toList]
    ∧ processFieldTag tagJsonInQuotes = some ⟨0, 9, "\x60yaml:\"a\x60".toList⟩
    ∧ Fields "json:\"a b\" yaml:\"c\"".toList
        = ["json:\"a".toList, "b\"".toList, "yaml:\"c\"".toList]
    ∧ processFieldTag tagSpaceInQuotes = some ⟨0, 9, "\x60b\" yaml:\"c\"\x60".toList⟩ := by
  refine ⟨fields_of_runs runs lead last hlead hruns hlast, ?_, by decide, by decide, by decide,
    by decide⟩
  intro parts p
  rw [newPartsOf_eq_filter, List.mem_filter]
  simp

/-- C16 at the content `json:"a b" yaml:"c"`: two words followed by a space,
then a last word. -/
theorem fragments_ignore_quotes_witness :
    Fields ([] ++ ([("json:\"a".toList, " ".toList), ("b\"".toList, " ".toList)].map
        (fun r => r.1 ++ r.2)).flatten ++ "yaml:\"c\"".toList)
      = [("json:\"a".toList, " ".toList), ("b\"".toList, " ".toList)].map (fun r => r.1)
        ++ (if "yaml:\"c\"".toList = [] then [] else ["yaml:\"c\"".toList]) :=
  (fragments_ignore_quotes [("json:\"a".toList, " ".toList), ("b\"".toList, " ".toList)] []
    "yaml:\"c\"".toList (by decide) (by decide) (by decide)).1

/-- C17 fails for the empty tag: the raw string literal of two back quotes has
an empty content, so no `json:` fragment, no white space at either end and
nothing between fragments, and `processFieldTag` clears the tag. -/
theorem empty_tag_is_cleared :
    isRawStringLit tagEmpty.value = true
    ∧ tagContent tagEmpty.value = []
    ∧ noJsonFragment (some tagEmpty) = true
    ∧ startsWithSpace (tagContent tagEmpty.value) = false
    ∧ endsWithSpace (tagContent tagEmpty.value) = false
    ∧ oneSpaceBetween (tagContent tagEmpty.value) = true
    ∧ processFieldTag tagEmpty = none := by
  decide

/-- C17 as amended: `processFieldTag` leaves a tag as it is when the tag is a
raw string literal whose content is not empty, has no fragment with key
`json`, no white space at either end and exactly one space between
neighbouring fragments; and it changes the tags `a:"1"  b:"2"` (two spaces)
and `a:"1"<tab>b:"2"`, which have no `json:` fragment, to `a:"1" b:"2"`. -/
theorem processFieldTag_normal_unchanged (tag : BasicLit) (content : List Char)
    (hv : tag.value = backtick :: (content ++ [backtick])) (hb : backtick ∉ content)
    (hne : content ≠ []) (hj : ∀ p ∈ Fields content, keyIsJson p = false)
    (hs : startsWithSpace content = false) (he : endsWithSpace content = false)
    (ho : oneSpaceBetween content = true) :
    processFieldTag tag = some tag
    ∧ (noJsonFragment (some tagTwoSpaces) = true
        ∧ processFieldTag tagTwoSpaces = some tagOneSpace
        ∧ tagOneSpace.value ≠ tagTwoSpaces.value)
    ∧ (noJsonFragment (some tagTab) = true
        ∧ processFieldTag tagTab = some tagOneSpace
        ∧ tagOneSpace.value ≠ tagTab.value) := by
  refine ⟨processFieldTag_normal tag content hv hb ?_, by decide, by decide⟩
  simp only [normalContent, Bool.and_eq_true, Bool.not_eq_true', List.isEmpty_eq_false,
    List.all_eq_true]
  exact ⟨⟨⟨⟨hne, hs⟩, he⟩, ho⟩, fun p hp => hj p hp⟩

/-- C17 as amended, at the tag `a:"1" b:"2"` between back quotes. -/
theorem processFieldTag_normal_unchanged_witness :
    processFieldTag tagOneSpace = some tagOneSpace :=
  (processFieldTag_normal_unchanged tagOneSpace "a:\"1\" b:\"2\"".toList (by decide) (by decide)
    (by decide) (by decide) (by decide) (by decide) (by decide)).1

/-! ## Repeating the mutation: claims C11 and C12 -/

/-- Where the trimmed tag holds no back quote, `processFieldTag` returns its
own result unchanged. -/
theorem processFieldTag_idem (tag t : BasicLit) (hno : backtick ∉ Trim tag.value [backtick])
    (h : processFieldTag tag = some t) :
    processFieldTag t = some t ∧ backtick ∉ Trim t.value [backtick] := by
  rw [processFieldTag_eq] at h
  by_cases hn : newPartsOf (Fields (Trim tag.value [backtick])) = []
  · simp [hn] at h
  · rw [if_neg hn, Option.some.injEq] at h
    have hJ := join_newParts_no_backtick _ hno
    have hval : t.value
        = backtick :: (Join (newPartsOf (Fields (Trim tag.value [backtick]))) [' ']
          ++ [backtick]) := by rw [← h]
    have ht : Trim t.value [backtick]
        = Join (newPartsOf (Fields (Trim tag.value [backtick]))) [' '] := by
      rw [hval]; exact trim_raw _ hJ
    have hf : Fields (Trim t.value [backtick])
        = newPartsOf (Fields (Trim tag.value [backtick])) := by
      rw [ht]
      exact fields_join _ (fun w hw => newParts_words _ w hw)
    have hkeep : newPartsOf (newPartsOf (Fields (Trim tag.value [backtick])))
        = newPartsOf (Fields (Trim tag.value [backtick])) := by
      rw [newPartsOf_eq_filter, newPartsOf_eq_filter, List.filter_filter]
      simp
    refine ⟨?_, by rw [ht]; exact hJ⟩
    rw [processFieldTag_eq, hf, hkeep, if_neg hn, ← hval]

theorem rawOrNoBacktick_trim (lit : BasicLit) (h : rawOrNoBacktick (some lit) = true) :
    backtick ∉ Trim lit.value [backtick] := by
  simp only [rawOrNoBacktick, Bool.or_eq_true, Bool.not_eq_true'] at h
  rcases h with hr | hq
  · obtain ⟨body, hb, hn⟩ := isRawStringLit_split _ hr
    have ht : Trim (backtick :: (body ++ [backtick])) [backtick] = body := trim_raw body hn
    rw [hb, ht]
    exact hn
  · intro hm
    have hmem : backtick ∈ lit.value := trim_subset _ _ _ hm
    have : lit.value.contains backtick = true := by
      simp only [List.contains_eq_any_beq, List.any_eq_true, beq_iff_eq]
      exact ⟨backtick, hmem, rfl⟩
    rw [this] at hq
    exact absurd hq (by decide)

theorem tagAfter_idem (n : Bool × Option BasicLit) (h : n.1 = true → rawOrNoBacktick n.2 = true) :
    tagAfter (tagAfter n) = tagAfter n := by
  obtain ⟨b, t⟩ := n
  cases b with
  | false => rfl
  | true =>
    cases t with
    | none => rfl
    | some lit =>
      have hno := rawOrNoBacktick_trim lit (h rfl)
      cases hp : processFieldTag lit with
      | none => simp [tagAfter, hp]
      | some t2 =>
        have := (processFieldTag_idem lit t2 hno hp).1
        simp [tagAfter, hp, this]

theorem docAfter_idem (n : DocKind × Option CommentGroup) : docAfter (docAfter n) = docAfter n := by
  obtain ⟨k, d⟩ := n
  by_cases h5 : k ∈ fiveKinds
  · rw [docAfter_five k d h5, docAfter_five k _ h5, clearMarkedDoc_eq (clearMarkedDoc d),
      clearMarkedDoc_unmarked]
    simp
  · simp [docAfter, h5]

theorem newCommentsOf_idem (comments : List (Option CommentGroup)) :
    newCommentsOf (newCommentsOf comments) = newCommentsOf comments := by
  rw [newCommentsOf_eq_filter, newCommentsOf_eq_filter, List.filter_filter]
  simp

theorem processComments_idem (file : File) :
    processComments (processComments file) = processComments file := by
  have hd : inspectCommentsDecls (inspectCommentsDecls file.decls)
      = inspectCommentsDecls file.decls := by
    apply inspectCommentsDecls_fixed
    intro n hn
    rw [docsDecls_inspect, List.mem_map] at hn
    obtain ⟨m, _, rfl⟩ := hn
    exact docAfter_idem m
  simp only [processComments, hd, newCommentsOf_idem]

theorem processStructTags_idem (file : File)
    (h : ∀ n ∈ fieldTags file, n.1 = true → rawOrNoBacktick n.2 = true) :
    processStructTags (processStructTags file) = processStructTags file := by
  have hd : inspectTagsDecls (inspectTagsDecls file.decls) = inspectTagsDecls file.decls := by
    apply inspectTagsDecls_fixed
    intro n hn
    rw [tagsDecls_inspectTags, List.mem_map] at hn
    obtain ⟨m, hm, rfl⟩ := hn
    exact tagAfter_idem m (h m hm)
  simp only [processStructTags, hd]

/-- C11 fails for a double-quoted tag with a back quote before a dropped
fragment: the interpreted literal `"a\x60 json:x"` is rewritten to the text
`"a\x60` between back quotes, and a second run trims the back quote off the
text and rewrites the tag again; so does the mutation of a file with that
tag. -/
theorem rewrap_not_idempotent :
    isStringLit tagBacktickJson.value = true
    ∧ processFieldTag tagBacktickJson = some ⟨0, 9, "\x60\"a\x60\x60".toList⟩
    ∧ processFieldTag ⟨0, 9, "\x60\"a\x60\x60".toList⟩ = some ⟨0, 9, "\x60\"a\x60".toList⟩
    ∧ fieldTags (mutate (fileWithTag tagBacktickJson))
        = [(true, some ⟨0, 9, "\x60\"a\x60\x60".toList⟩)]
    ∧ fieldTags (mutate (mutate (fileWithTag tagBacktickJson)))
        = [(true, some ⟨0, 9, "\x60\"a\x60".toList⟩)] := by
  decide

/-- C11 as amended: for a file tree in which every tag of a struct field is a
raw string literal or holds no back quote, applying the mutation to the
mutated tree gives the mutated tree; and for such a tag `processFieldTag`
returns its own result unchanged. -/
theorem mutate_idempotent (file : File)
    (h : ∀ n ∈ fieldTags file, n.1 = true → rawOrNoBacktick n.2 = true) :
    mutate (mutate file) = mutate file
    ∧ ∀ tag t : BasicLit, rawOrNoBacktick (some tag) = true → processFieldTag tag = some t →
        processFieldTag t = some t := by
  constructor
  · have h2 : ∀ n ∈ fieldTags (processComments file), n.1 = true → rawOrNoBacktick n.2 = true := by
      rw [fieldTags_processComments]; exact h
    unfold mutate
    rw [passes_commute (processComments file), processComments_idem,
      processStructTags_idem (processComments file) h2]
  · intro tag t hr hp
    exact (processFieldTag_idem tag t (rawOrNoBacktick_trim tag hr) hp).1

/-- C11 as amended, at the file `requiredFieldFile`. -/
theorem mutate_idempotent_witness :
    (∀ n ∈ fieldTags requiredFieldFile, n.1 = true → rawOrNoBacktick n.2 = true)
    ∧ mutate (mutate requiredFieldFile) = mutate requiredFieldFile :=
  ⟨by decide, (mutate_idempotent requiredFieldFile (by decide)).1⟩

/-- C12 fails where a tag is not in the form the tool writes: the file whose
one struct field has the tag `a:"1"  b:"2"`, two spaces between the fragments,
has no comment, no marker and no fragment with key `json`, and the mutation
rewrites the tag with one space. -/
theorem whitespace_is_normalized :
    (fileWithTag tagTwoSpaces).comments = []
    ∧ (∀ n ∈ docNodes (fileWithTag tagTwoSpaces), containsKubebuilder n.2 = false)
    ∧ (∀ n ∈ fieldTags (fileWithTag tagTwoSpaces), noJsonFragment n.2 = true)
    ∧ fieldTags (fileWithTag tagTwoSpaces) = [(true, some tagTwoSpaces)]
    ∧ fieldTags (mutate (fileWithTag tagTwoSpaces)) = [(true, some tagOneSpace)]
    ∧ tagOneSpace.value ≠ tagTwoSpaces.value := by
  decide

/-- C12 as amended: for a file tree with no marked block in the file-level
sequence, no marked `Doc` on a node of the five kinds, and every struct field
tag a raw string literal in normal form (content not empty, no fragment with
key `json`, no white space at either end, exactly one space between
neighbouring fragments), the mutation returns the tree it was given: comment
blocks, documentation references and field tags are what they were. -/
theorem mutate_no_match_no_change (file : File)
    (hc : ∀ cg ∈ file.comments, containsKubebuilder cg = false)
    (hd : ∀ n ∈ docNodes file, n.1 ∈ fiveKinds → containsKubebuilder n.2 = false)
    (ht : ∀ n ∈ fieldTags file, n.1 = true → normalOrAbsent n.2 = true) :
    mutate file = file
    ∧ (mutate file).comments = file.comments
    ∧ docNodes (mutate file) = docNodes file
    ∧ fieldTags (mutate file) = fieldTags file := by
  have hdocs : inspectCommentsDecls file.decls = file.decls := by
    apply inspectCommentsDecls_fixed
    intro n hn
    obtain ⟨k, d⟩ := n
    by_cases h5 : k ∈ fiveKinds
    · have hu := hd (k, d) (List.mem_cons_of_mem _ hn) h5
      rw [docAfter_five k d h5, clearMarkedDoc_eq]
      simp only at hu
      simp [hu]
    · simp [docAfter, h5]
  have htags : inspectTagsDecls file.decls = file.decls := by
    apply inspectTagsDecls_fixed
    intro n hn
    obtain ⟨b, t⟩ := n
    cases b with
    | false => rfl
    | true =>
      cases t with
      | none => rfl
      | some lit =>
        have hn2 := ht (true, some lit) hn rfl
        simp only [normalOrAbsent, Bool.and_eq_true] at hn2
        obtain ⟨body, hb, hnb⟩ := isRawStringLit_split _ hn2.1
        have hcont : tagContent lit.value = body := by rw [hb]; exact tagContent_wrap body
        have hp := processFieldTag_normal lit body hb hnb (by rw [← hcont]; exact hn2.2)
        simp [tagAfter, hp]
  have hcom : newCommentsOf file.comments = file.comments := by
    rw [newCommentsOf_eq_filter, List.filter_eq_self]
    intro cg hcg
    simp [hc cg hcg]
  have hm : mutate file = file := by
    simp only [mutate, processStructTags, processComments, hdocs, htags, hcom]
  exact ⟨hm, by rw [hm], by rw [hm], by rw [hm]⟩

/-- C12 as amended, at the file `plainFile`. -/
theorem mutate_no_match_no_change_witness :
    ((∀ cg ∈ plainFile.comments, containsKubebuilder cg = false)
      ∧ (∀ n ∈ docNodes plainFile, n.1 ∈ fiveKinds → containsKubebuilder n.2 = false)
      ∧ (∀ n ∈ fieldTags plainFile, n.1 = true → normalOrAbsent n.2 = true))
    ∧ mutate plainFile = plainFile
    ∧ fieldTags (mutate plainFile) = fieldTags plainFile :=
  ⟨by decide,
    (mutate_no_match_no_change plainFile (by decide) (by decide) (by decide)).1,
    (mutate_no_match_no_change plainFile (by decide) (by decide) (by decide)).2.2.2⟩


end ToInternalTypes
